import Mathlib

set_option maxRecDepth 8000

attribute [local semireducible] Rat.mul Rat.inv Rat.add Rat.sub Rat.ofScientific

/-!
Verification of the cAR-gst-plugins depth colorizer codec
(`src/dcolorizer/imp.rs`) and frame handoff buffer (`src/frame.rs`).

The codec's `f64` arithmetic is modelled exactly: an IEEE binary64 value is
represented by the rational number it denotes, and every arithmetic operation
rounds its exact rational result to the nearest representable binary64 value
(round half to even), which is precisely the IEEE semantics in the normal
range.  All values arising in the codec under the documented depth bounds
(1 ≤ min_depth ≤ max_depth ≤ 65535) are normal, finite and nonnegative.
The single exceptional case, `0.0 / 0.0` (which arises when
min_depth = max_depth and produces NaN in the source), is modelled as `0`,
which agrees with the source's saturating `NaN as isize == 0` cast at the
one point where that value is consumed.
-/

namespace DColorizer

/-! ## Integer-level pieces of `colorize` (src/dcolorizer/imp.rs:156-185)

The per-channel six-segment ramps operate on the truncated normalized scalar
`d_normal : isize`.  Rust `isize` arithmetic is modelled by `ℤ` (no overflow
is possible at these magnitudes).  The `unreachable!()` arms are modelled by
`Option.none` (a panic). -/

/-- Red channel raw value: the `match d_normal` for `r` (imp.rs:156-162). -/
def rRaw (n : ℤ) : Option ℤ :=
  if (0 ≤ n ∧ n ≤ 255) ∨ (1276 ≤ n ∧ n ≤ 1529) then some 255
  else if 256 ≤ n ∧ n ≤ 510 then some (255 - n)
  else if 511 ≤ n ∧ n ≤ 1020 then some 0
  else if 1021 ≤ n ∧ n ≤ 1275 then some (n - 1020)
  else none

/-- Green channel raw value: the `match d_normal` for `g` (imp.rs:164-170). -/
def gRaw (n : ℤ) : Option ℤ :=
  if 0 ≤ n ∧ n ≤ 255 then some n
  else if 256 ≤ n ∧ n ≤ 510 then some 255
  else if 511 ≤ n ∧ n ≤ 765 then some (765 - n)
  else if 766 ≤ n ∧ n ≤ 1529 then some 0
  else none

/-- Blue channel raw value: the `match d_normal` for `b` (imp.rs:172-178). -/
def bRaw (n : ℤ) : Option ℤ :=
  if 0 ≤ n ∧ n ≤ 765 then some 0
  else if 766 ≤ n ∧ n ≤ 1020 then some (n - 765)
  else if 1021 ≤ n ∧ n ≤ 1275 then some 255
  else if 1276 ≤ n ∧ n ≤ 1529 then some (1529 - n)
  else none

/-- The `r & u8::MAX as isize` masking step (imp.rs:180-182): bitwise AND with
`0xFF` in two's-complement `isize` arithmetic, then stored as a `u8`. -/
def maskByte (v : ℤ) : ℕ := (Int.land v 255).toNat

/-- The three RGB bytes `colorize` stores for a given truncated normalized
scalar (imp.rs:156-185); `none` models the `unreachable!()` panic. -/
def rgbOfScalar (n : ℤ) : Option (ℕ × ℕ × ℕ) :=
  match rRaw n, gRaw n, bRaw n with
  | some r, some g, some b => some (maskByte r, maskByte g, maskByte b)
  | _, _, _ => none

/-! ## Integer-level piece of `decolorize` (imp.rs:215-232)

The dominant-channel inversion runs in Rust `usize` arithmetic; release-mode
`usize` subtraction and addition wrap modulo `2^64`, which is modelled
explicitly. -/

/-- Wrapping 64-bit unsigned subtraction (`usize` subtraction, release mode). -/
def wsub (a b : ℕ) : ℕ := (a + 2 ^ 64 - b) % 2 ^ 64

/-- Wrapping 64-bit unsigned addition (`usize` addition, release mode). -/
def wadd (a b : ℕ) : ℕ := (a + b) % 2 ^ 64

/-- The normalized scalar `dnormal` recovered by `decolorize` from one RGB
pixel (imp.rs:218-232), including the `R+G+B < 255` below-threshold test and
the trailing catch-all `else { 0 }`. -/
def dnormalOfRgb (r g b : ℕ) : ℕ :=
  if r + g + b < 255 then 0
  else if r ≥ g ∧ r ≥ b then
    (if g ≥ b then wsub g b else wadd (wsub g b) 1529)
  else if g ≥ r ∧ g ≥ b then wadd (wsub b r) 510
  else if b ≥ g ∧ b ≥ r then wadd (wsub r g) 1020
  else 0

/-- Scalar-level round trip: feed the RGB bytes produced by `colorize` for
scalar `n` back through `decolorize`'s inversion. -/
def scalarRoundTrip (n : ℕ) : Option ℕ :=
  (rgbOfScalar (n : ℤ)).map (fun p => dnormalOfRgb p.1 p.2.1 p.2.2)

end DColorizer

/-! ## Exact model of IEEE binary64 (`f64`) arithmetic

A binary64 value is represented by the rational number it denotes.  Each
operation computes its exact rational result and rounds it to 53 significant
bits, round-to-nearest, ties to even — exactly the IEEE semantics on the
normal range, which covers every value arising in this codec. -/

namespace F64

/-- Fuel-bounded floor of the base-2 logarithm (`log2Fuel fuel n` is correct
whenever `n < 2 ^ fuel`); structural recursion keeps it kernel-computable. -/
def log2Fuel : ℕ → ℕ → ℕ
  | 0, _ => 0
  | fuel + 1, n => if n ≤ 1 then 0 else log2Fuel fuel (n / 2) + 1

/-- Fuel covering every rational arising here (numerators and denominators
stay far below `2 ^ 1000`). -/
def expFuel : ℕ := 1000

/-- Candidate binary exponent of a positive rational. -/
def ratExpAux (q : ℚ) : ℤ :=
  (log2Fuel expFuel q.num.natAbs : ℤ) - (log2Fuel expFuel q.den : ℤ)

/-- Binary exponent of a positive rational `q`: the unique `e` with
`2 ^ e ≤ q < 2 ^ (e + 1)` (for `q` within the fuel bound). -/
def ratExp (q : ℚ) : ℤ :=
  if (2:ℚ) ^ ratExpAux q ≤ q then ratExpAux q else ratExpAux q - 1

/-- Round a positive rational to 53 significant bits, nearest, ties to
even: scale into `[2^52, 2^53)`, split on the fractional part, and scale
back. -/
def roundPos (q : ℚ) : ℚ :=
  let e := ratExp q
  let s := q * (2:ℚ) ^ (52 - e)
  let m := ⌊s⌋
  let sig : ℤ :=
    if s - (m : ℚ) < 1/2 then m
    else if (1:ℚ)/2 < s - (m : ℚ) then m + 1
    else if 2 ∣ m then m else m + 1
  (sig : ℚ) * (2:ℚ) ^ (e - 52)

/-- The exact value of the IEEE binary64 rounding of a rational. -/
def roundQ (q : ℚ) : ℚ :=
  if q = 0 then 0 else if q < 0 then -roundPos (-q) else roundPos q

/-- `f64` addition. -/
def fadd (a b : ℚ) : ℚ := roundQ (a + b)

/-- `f64` subtraction. -/
def fsub (a b : ℚ) : ℚ := roundQ (a - b)

/-- `f64` multiplication. -/
def fmul (a b : ℚ) : ℚ := roundQ (a * b)

/-- `f64` division.  Division by zero is modelled as `0`: the only
zero-denominator case reachable in this codec is `0.0 / 0.0`, whose IEEE
result NaN is consumed solely by a saturating `as isize` cast that maps
NaN to `0`, the same end result. -/
def fdiv (a b : ℚ) : ℚ := if b = 0 then 0 else roundQ (a / b)

/-- Size bound under which `ratExp`'s fuel is sufficient. -/
def Rep (q : ℚ) : Prop := q.num.natAbs < 2 ^ expFuel ∧ q.den < 2 ^ expFuel

theorem log2Fuel_spec (fuel : ℕ) : ∀ n : ℕ, n ≠ 0 → n < 2 ^ fuel →
    2 ^ log2Fuel fuel n ≤ n ∧ n < 2 ^ (log2Fuel fuel n + 1) := by
  induction fuel with
  | zero =>
    intro n h0 h1
    simp only [pow_zero] at h1
    omega
  | succ fuel ih =>
    intro n h0 h1
    by_cases hn : n ≤ 1
    · have hn1 : n = 1 := by omega
      simp [log2Fuel, hn1]
    · have hrec := ih (n / 2) (by omega)
        (by
          have h2 : 2 ^ (fuel + 1) = 2 * 2 ^ fuel := by ring
          omega)
      obtain ⟨ha, hb⟩ := hrec
      have heq : log2Fuel (fuel + 1) n = log2Fuel fuel (n / 2) + 1 := by
        simp [log2Fuel, hn]
      rw [heq]
      constructor
      · have : 2 ^ (log2Fuel fuel (n / 2) + 1) = 2 * 2 ^ log2Fuel fuel (n / 2) := by ring
        omega
      · have : 2 ^ (log2Fuel fuel (n / 2) + 1 + 1) = 2 * 2 ^ (log2Fuel fuel (n / 2) + 1) := by
          ring
        omega

theorem ratExp_spec {q : ℚ} (hq : 0 < q) (hr : Rep q) :
    (2:ℚ) ^ ratExp q ≤ q ∧ q < (2:ℚ) ^ (ratExp q + 1) := by
  obtain ⟨hrn, hrd⟩ := hr
  have hnum : 0 < q.num := Rat.num_pos.mpr hq
  have hN0 : q.num.natAbs ≠ 0 := by omega
  have hD0 : q.den ≠ 0 := q.den_nz
  obtain ⟨ha1, ha2⟩ := log2Fuel_spec expFuel q.num.natAbs hN0 hrn
  obtain ⟨hb1, hb2⟩ := log2Fuel_spec expFuel q.den hD0 hrd
  set a := log2Fuel expFuel q.num.natAbs with hadef
  set b := log2Fuel expFuel q.den with hbdef
  have habs : (q.num.natAbs : ℤ) = q.num := Int.natAbs_of_nonneg hnum.le
  have hqeq : q = (q.num.natAbs : ℚ) / (q.den : ℚ) := by
    conv_lhs => rw [← Rat.num_div_den q]
    congr 1
    rw [← habs]
    exact (Int.cast_natCast _).symm
  have hdenpos : (0:ℚ) < (q.den : ℚ) := by positivity
  have hhigh : q < (2:ℚ) ^ (ratExpAux q + 1) := by
    have hrw : (2:ℚ) ^ (ratExpAux q + 1) = ((2 ^ (a + 1) : ℕ) : ℚ) / ((2 ^ b : ℕ) : ℚ) := by
      unfold ratExpAux
      rw [← hadef, ← hbdef]
      push_cast
      rw [← zpow_natCast (2:ℚ) (a + 1), ← zpow_natCast (2:ℚ) b, ← zpow_sub₀ (two_ne_zero)]
      congr 1
      push_cast
      ring
    rw [hrw, hqeq, div_lt_div_iff₀ hdenpos (by positivity)]
    have hgoal : q.num.natAbs * 2 ^ b < 2 ^ (a + 1) * q.den := by
      calc q.num.natAbs * 2 ^ b < 2 ^ (a + 1) * 2 ^ b :=
            mul_lt_mul_of_pos_right ha2 (pow_pos (by norm_num) b)
      _ ≤ 2 ^ (a + 1) * q.den := Nat.mul_le_mul_left _ hb1
    exact_mod_cast hgoal
  have hlow : (2:ℚ) ^ (ratExpAux q - 1) ≤ q := by
    have hrw : (2:ℚ) ^ (ratExpAux q - 1) = ((2 ^ a : ℕ) : ℚ) / ((2 ^ (b + 1) : ℕ) : ℚ) := by
      unfold ratExpAux
      rw [← hadef, ← hbdef]
      push_cast
      rw [← zpow_natCast (2:ℚ) a, ← zpow_natCast (2:ℚ) (b + 1), ← zpow_sub₀ (two_ne_zero)]
      congr 1
      push_cast
      ring
    rw [hrw, hqeq, div_le_div_iff₀ (by positivity) hdenpos]
    have hgoal : 2 ^ a * q.den ≤ q.num.natAbs * 2 ^ (b + 1) := by
      calc 2 ^ a * q.den ≤ 2 ^ a * 2 ^ (b + 1) :=
            Nat.mul_le_mul_left _ (le_of_lt hb2)
      _ ≤ q.num.natAbs * 2 ^ (b + 1) := Nat.mul_le_mul_right _ ha1
    exact_mod_cast hgoal
  unfold ratExp
  split_ifs with hcase
  · exact ⟨hcase, hhigh⟩
  · refine ⟨hlow, ?_⟩
    have : ratExpAux q - 1 + 1 = ratExpAux q := by ring
    rw [this]
    exact lt_of_not_le hcase

theorem roundPos_spec {q : ℚ} (hq : 0 < q) (hr : Rep q) :
    |roundPos q - q| ≤ q * (2:ℚ) ^ (-53 : ℤ) ∧
      ∃ s : ℕ, 0 < s ∧ s ≤ 2 ^ 53 ∧ roundPos q = (s : ℚ) * (2:ℚ) ^ (ratExp q - 52) := by
  obtain ⟨he1, he2⟩ := ratExp_spec hq hr
  set e := ratExp q with hedef
  set s : ℚ := q * (2:ℚ) ^ ((52:ℤ) - e) with hsdef
  set m : ℤ := ⌊s⌋ with hmdef
  set sig : ℤ := if s - (m : ℚ) < 1/2 then m
    else if (1:ℚ)/2 < s - (m : ℚ) then m + 1
    else if 2 ∣ m then m else m + 1 with hsigdef
  have hrp : roundPos q = (sig : ℚ) * (2:ℚ) ^ (e - 52) := rfl
  have hpow_pos : (0:ℚ) < (2:ℚ) ^ ((52:ℤ) - e) := zpow_pos (by norm_num) _
  have hs_lo : (2:ℚ) ^ (52:ℤ) ≤ s := by
    have hsplit : (2:ℚ) ^ (52:ℤ) = (2:ℚ) ^ e * (2:ℚ) ^ ((52:ℤ) - e) := by
      rw [← zpow_add₀ (two_ne_zero : (2:ℚ) ≠ 0)]
      congr 1
      ring
    rw [hsplit]
    exact mul_le_mul_of_nonneg_right he1 hpow_pos.le
  have hs_hi : s < (2:ℚ) ^ (53:ℤ) := by
    have hsplit : (2:ℚ) ^ (53:ℤ) = (2:ℚ) ^ (e + 1) * (2:ℚ) ^ ((52:ℤ) - e) := by
      rw [← zpow_add₀ (two_ne_zero : (2:ℚ) ≠ 0)]
      congr 1
      ring
    rw [hsplit]
    exact mul_lt_mul_of_pos_right he2 hpow_pos
  have hfloor_le : (m : ℚ) ≤ s := Int.floor_le s
  have hlt_floor : s < (m : ℚ) + 1 := Int.lt_floor_add_one s
  have hsig_lo : m ≤ sig := by rw [hsigdef]; split_ifs <;> omega
  have hsig_hi : sig ≤ m + 1 := by rw [hsigdef]; split_ifs <;> omega
  have hm_lo : (2:ℤ) ^ 52 ≤ m := by
    rw [hmdef]
    apply Int.le_floor.mpr
    calc ((2 ^ 52 : ℤ) : ℚ) = (2:ℚ) ^ (52:ℤ) := by push_cast; norm_num
    _ ≤ s := hs_lo
  have hm_hi : m < (2:ℤ) ^ 53 := by
    have : (m : ℚ) < ((2 ^ 53 : ℤ) : ℚ) := by
      calc (m : ℚ) ≤ s := hfloor_le
      _ < (2:ℚ) ^ (53:ℤ) := hs_hi
      _ = ((2 ^ 53 : ℤ) : ℚ) := by push_cast; norm_num
    exact_mod_cast this
  have hsig_near : |(sig : ℚ) - s| ≤ 1/2 := by
    rw [hsigdef]
    split_ifs with h1 h2 h3
    · rw [abs_sub_comm, abs_of_nonneg (by linarith)]
      linarith
    · push_cast
      rw [abs_of_nonneg (by linarith)]
      push_cast at h2 ⊢
      linarith
    · rw [abs_sub_comm, abs_of_nonneg (by linarith)]
      linarith
    · push_cast
      rw [abs_of_nonneg (by linarith)]
      linarith
  have hqs : q = s * (2:ℚ) ^ (e - 52) := by
    rw [hsdef, mul_assoc, ← zpow_add₀ (two_ne_zero : (2:ℚ) ≠ 0),
      show (52:ℤ) - e + (e - 52) = 0 by ring, zpow_zero, mul_one]
  constructor
  · rw [hrp]
    conv_lhs => rw [hqs]
    rw [← sub_mul, abs_mul, abs_of_pos (zpow_pos (show (0:ℚ) < 2 by norm_num) _)]
    calc |(sig : ℚ) - s| * (2:ℚ) ^ (e - 52) ≤ (1/2) * (2:ℚ) ^ (e - 52) :=
          mul_le_mul_of_nonneg_right hsig_near (zpow_pos (show (0:ℚ) < 2 by norm_num) _).le
    _ = (2:ℚ) ^ (e - 53) := by
        rw [show (e:ℤ) - 53 = -1 + (e - 52) by ring, zpow_add₀ (two_ne_zero : (2:ℚ) ≠ 0)]
        norm_num
    _ = (2:ℚ) ^ (e:ℤ) * (2:ℚ) ^ (-53:ℤ) := by
        rw [← zpow_add₀ (two_ne_zero : (2:ℚ) ≠ 0), show (e:ℤ) + -53 = e - 53 by ring]
    _ ≤ q * (2:ℚ) ^ (-53:ℤ) :=
        mul_le_mul_of_nonneg_right he1 (zpow_pos (show (0:ℚ) < 2 by norm_num) _).le
  · refine ⟨sig.toNat, by omega, by omega, ?_⟩
    rw [hrp]
    congr 1
    exact_mod_cast (Int.toNat_of_nonneg (by omega)).symm

theorem roundQ_eq_roundPos {q : ℚ} (hq : 0 < q) : roundQ q = roundPos q := by
  unfold roundQ
  rw [if_neg (ne_of_gt hq), if_neg (not_lt.mpr hq.le)]

theorem roundQ_spec {q : ℚ} (hq : 0 < q) (hr : Rep q) :
    |roundQ q - q| ≤ q * (2:ℚ) ^ (-53 : ℤ) ∧
      ∃ s : ℕ, 0 < s ∧ s ≤ 2 ^ 53 ∧ roundQ q = (s : ℚ) * (2:ℚ) ^ (ratExp q - 52) := by
  rw [roundQ_eq_roundPos hq]
  exact roundPos_spec hq hr

theorem roundQ_err {q : ℚ} (hq : 0 < q) (hr : Rep q) :
    q * (1 - (2:ℚ) ^ (-53:ℤ)) ≤ roundQ q ∧ roundQ q ≤ q * (1 + (2:ℚ) ^ (-53:ℤ)) := by
  have h := (roundQ_spec hq hr).1
  rw [abs_le] at h
  constructor <;> nlinarith [h.1, h.2]

theorem roundQ_pos {q : ℚ} (hq : 0 < q) (hr : Rep q) : 0 < roundQ q := by
  have h := (roundQ_err hq hr).1
  have hu : (0:ℚ) < 1 - (2:ℚ) ^ (-53:ℤ) := by
    rw [show ((2:ℚ) ^ (-53:ℤ)) = ((2:ℚ) ^ (53:ℤ))⁻¹ by rw [← zpow_neg]]
    have h2 : (1:ℚ) < (2:ℚ) ^ (53:ℤ) := by
      calc (1:ℚ) = (2:ℚ) ^ (0:ℤ) := by norm_num
      _ < (2:ℚ) ^ (53:ℤ) := by
          rw [zpow_lt_zpow_iff_right₀ (by norm_num : (1:ℚ) < 2)]
          norm_num
    have := inv_lt_one_of_one_lt₀ h2
    linarith
  nlinarith

/-- Every positive dyadic rational with at most 53 significant bits is a
fixed point of the rounding (it is exactly representable). -/
theorem roundQ_dyadic {s : ℕ} (hs0 : 0 < s) (hs : s ≤ 2 ^ 53) (k : ℤ)
    (hr : Rep ((s:ℚ) * (2:ℚ) ^ k)) :
    roundQ ((s:ℚ) * (2:ℚ) ^ k) = (s:ℚ) * (2:ℚ) ^ k := by
  set q : ℚ := (s:ℚ) * (2:ℚ) ^ k with hqdef
  have hq : 0 < q := by
    rw [hqdef]
    have : (0:ℚ) < (s:ℚ) := by exact_mod_cast hs0
    exact mul_pos this (zpow_pos (show (0:ℚ) < 2 by norm_num) _)
  obtain ⟨he1, he2⟩ := ratExp_spec hq hr
  set e := ratExp q with hedef
  have he_hi : e ≤ 53 + k := by
    have hqle : q ≤ (2:ℚ) ^ (53 + k) := by
      rw [hqdef, zpow_add₀ (two_ne_zero : (2:ℚ) ≠ 0)]
      apply mul_le_mul_of_nonneg_right _ (zpow_pos (by norm_num : (0:ℚ) < 2) k).le
      calc ((s:ℕ):ℚ) ≤ ((2 ^ 53 : ℕ) : ℚ) := by exact_mod_cast hs
      _ = (2:ℚ) ^ (53:ℤ) := by push_cast; norm_num
    have h2e : (2:ℚ) ^ e ≤ (2:ℚ) ^ (53 + k) := le_trans he1 hqle
    exact (zpow_le_zpow_iff_right₀ (by norm_num : (1:ℚ) < 2)).mp h2e
  obtain ⟨z, hz⟩ : ∃ z : ℤ, q * (2:ℚ) ^ ((52:ℤ) - e) = (z:ℚ) := by
    by_cases hcase : e ≤ 52 + k
    · refine ⟨(s : ℤ) * 2 ^ (k + 52 - e).toNat, ?_⟩
      rw [hqdef, mul_assoc, ← zpow_add₀ (two_ne_zero : (2:ℚ) ≠ 0)]
      push_cast
      rw [show (k + ((52:ℤ) - e)) = ((k + 52 - e).toNat : ℤ) by omega, zpow_natCast]
    · have he53 : e = 53 + k := by omega
      have hs53 : 2 ^ 53 ≤ s := by
        have h1 : (2:ℚ) ^ ((53:ℤ) + k) ≤ (s:ℚ) * (2:ℚ) ^ k := by
          rw [← he53, ← hqdef]
          exact he1
        rw [zpow_add₀ (two_ne_zero : (2:ℚ) ≠ 0)] at h1
        have h2 := le_of_mul_le_mul_right h1 (zpow_pos (by norm_num : (0:ℚ) < 2) k)
        have h3 : ((2 ^ 53 : ℕ) : ℚ) ≤ (s:ℚ) := by
          calc ((2 ^ 53 : ℕ) : ℚ) = (2:ℚ) ^ (53:ℤ) := by push_cast; norm_num
          _ ≤ (s:ℚ) := h2
        exact_mod_cast h3
      have hseq : s = 2 ^ 53 := le_antisymm hs hs53
      refine ⟨2 ^ 52, ?_⟩
      have hcast : ((s:ℕ):ℚ) = (2:ℚ) ^ (53:ℤ) := by
        rw [hseq]
        push_cast
        norm_num
      rw [hqdef, hcast, he53, mul_assoc, ← zpow_add₀ (two_ne_zero : (2:ℚ) ≠ 0),
        ← zpow_add₀ (two_ne_zero : (2:ℚ) ≠ 0),
        show (53:ℤ) + (k + (52 - (53 + k))) = 52 by ring]
      push_cast
      norm_num
  have hround : roundPos q = (z:ℚ) * (2:ℚ) ^ (e - 52) := by
    have hm : ⌊q * (2:ℚ) ^ ((52:ℤ) - e)⌋ = z := by
      rw [hz]
      exact Int.floor_intCast z
    show (let e' := ratExp q
      let s' := q * (2:ℚ) ^ (52 - e')
      let m' := ⌊s'⌋
      let sig : ℤ := if s' - (m' : ℚ) < 1/2 then m'
        else if (1:ℚ)/2 < s' - (m' : ℚ) then m' + 1
        else if 2 ∣ m' then m' else m' + 1
      (sig : ℚ) * (2:ℚ) ^ (e' - 52)) = (z:ℚ) * (2:ℚ) ^ (e - 52)
    simp only [← hedef, hm, hz, Int.floor_intCast, sub_self]
    rw [if_pos (by norm_num : (0:ℚ) < 1/2)]
  rw [roundQ_eq_roundPos hq, hround, ← hz, mul_assoc,
    ← zpow_add₀ (two_ne_zero : (2:ℚ) ≠ 0),
    show ((52:ℤ) - e + (e - 52)) = 0 by ring, zpow_zero, mul_one]

theorem rep_zero : Rep 0 := by
  have h1 : (0:ℚ).num = 0 := rfl
  have h2 : (0:ℚ).den = 1 := rfl
  constructor
  · rw [h1]
    simp only [Int.natAbs_zero]
    positivity
  · rw [h2]
    exact Nat.one_lt_two_pow_iff.mpr (by norm_num [expFuel])

theorem rep_div_nat {a b : ℕ} (ha : a < 2 ^ expFuel) (hb : b < 2 ^ expFuel) :
    Rep ((a : ℚ) / (b : ℚ)) := by
  by_cases hb0 : b = 0
  · subst hb0
    rw [Nat.cast_zero, div_zero]
    exact rep_zero
  have hdiv : ((a:ℚ) / (b:ℚ)) = Rat.divInt (a : ℤ) (b : ℤ) := by
    rw [Rat.divInt_eq_div, Int.cast_natCast, Int.cast_natCast]
  constructor
  · by_cases ha0 : a = 0
    · subst ha0
      rw [Nat.cast_zero, zero_div]
      exact rep_zero.1
    · have hdvd : ((a:ℚ) / (b:ℚ)).num ∣ (a : ℤ) := by
        rw [hdiv]
        exact Rat.num_dvd _ (by exact_mod_cast hb0)
      have hnat : ((a:ℚ) / (b:ℚ)).num.natAbs ∣ a := by
        have := Int.natAbs_dvd_natAbs.mpr hdvd
        simpa using this
      exact lt_of_le_of_lt (Nat.le_of_dvd (by omega) hnat) ha
  · have hdvd : (((a:ℚ) / (b:ℚ)).den : ℤ) ∣ (b : ℤ) := by
      rw [hdiv]
      exact Rat.den_dvd _ _
    have hnat : ((a:ℚ) / (b:ℚ)).den ∣ b := by exact_mod_cast hdvd
    exact lt_of_le_of_lt (Nat.le_of_dvd (by omega) hnat) hb

/-- The value of `(n : u16/usize) as f64` — exact for these magnitudes, but
modelled through the rounding for faithfulness. -/
def ofNat (n : ℕ) : ℚ := roundQ n

/-- The saturating `as isize` cast applied to the codec's `f64` values:
truncation toward zero (saturation at `isize` bounds is unreachable at
these magnitudes; NaN, mapped to `0` by the cast, is modelled at `fdiv`). -/
def castIsize (q : ℚ) : ℤ := if 0 ≤ q then ⌊q⌋ else -⌊-q⌋

/-- The saturating `as usize` cast: negatives to `0`, truncation toward
zero, saturation at `usize::MAX`. -/
def castUsize (q : ℚ) : ℕ := if q < 0 then 0 else min ⌊q⌋.toNat (2 ^ 64 - 1)

theorem rep_nat {a : ℕ} (ha : a < 2 ^ expFuel) : Rep (a : ℚ) := by
  have h := rep_div_nat ha (show (1:ℕ) < 2 ^ expFuel by
    exact Nat.one_lt_two_pow_iff.mpr (by norm_num [expFuel]))
  rw [Nat.cast_one, div_one] at h
  exact h

theorem ofNat_eq_self {n : ℕ} (h : n ≤ 2 ^ 53) : ofNat n = (n : ℚ) := by
  unfold ofNat
  rcases Nat.eq_zero_or_pos n with h0 | h0
  · subst h0
    simp [roundQ]
  · have hq : ((n:ℚ) * (2:ℚ) ^ (0:ℤ)) = (n:ℚ) := by rw [zpow_zero, mul_one]
    have hrep : Rep ((n:ℚ) * (2:ℚ) ^ (0:ℤ)) := by
      rw [hq]
      exact rep_nat (lt_of_le_of_lt h (by norm_num [expFuel]))
    have hfix := roundQ_dyadic h0 h 0 hrep
    rw [hq] at hfix
    exact hfix

theorem roundQ_zero : roundQ 0 = 0 := by
  unfold roundQ
  rw [if_pos rfl]

theorem ratExp_bounds {q : ℚ} (hq : 0 < q) (hr : Rep q) {a b : ℤ}
    (hlo : (2:ℚ) ^ a ≤ q) (hhi : q < (2:ℚ) ^ b) :
    a ≤ ratExp q ∧ ratExp q < b := by
  obtain ⟨he1, he2⟩ := ratExp_spec hq hr
  constructor
  · have h := lt_of_le_of_lt hlo he2
    have := (zpow_lt_zpow_iff_right₀ (by norm_num : (1:ℚ) < 2)).mp h
    omega
  · have h := lt_of_le_of_lt he1 hhi
    exact (zpow_lt_zpow_iff_right₀ (by norm_num : (1:ℚ) < 2)).mp h

theorem rep_of_dyadic {s : ℕ} (hs : s ≤ 2 ^ 53) {k : ℤ} (hk1 : -900 ≤ k) (hk2 : k ≤ 900) :
    Rep ((s:ℚ) * (2:ℚ) ^ k) := by
  rcases le_or_lt 0 k with hk | hk
  · have heq : ((s:ℚ) * (2:ℚ) ^ k) = ((s * 2 ^ k.toNat : ℕ) : ℚ) := by
      push_cast
      rw [← zpow_natCast (2:ℚ) k.toNat, Int.toNat_of_nonneg hk]
    rw [heq]
    apply rep_nat
    calc s * 2 ^ k.toNat ≤ 2 ^ 53 * 2 ^ k.toNat := Nat.mul_le_mul_right _ hs
    _ = 2 ^ (53 + k.toNat) := by rw [pow_add]
    _ < 2 ^ expFuel := Nat.pow_lt_pow_right (by norm_num) (by unfold expFuel; omega)
  · have heq : ((s:ℚ) * (2:ℚ) ^ k) = ((s : ℕ) : ℚ) / ((2 ^ (-k).toNat : ℕ) : ℚ) := by
      push_cast
      rw [← zpow_natCast (2:ℚ) (-k).toNat, Int.toNat_of_nonneg (by omega), div_eq_mul_inv,
        ← zpow_neg, neg_neg]
    rw [heq]
    apply rep_div_nat
    · exact lt_of_le_of_lt hs (Nat.pow_lt_pow_right (by norm_num) (by unfold expFuel; omega))
    · calc 2 ^ (-k).toNat ≤ 2 ^ 900 :=
          Nat.pow_le_pow_right (by norm_num) (by omega)
      _ < 2 ^ expFuel := Nat.pow_lt_pow_right (by norm_num) (by unfold expFuel; omega)

/-- Rounding is idempotent on (magnitude-bounded) positive rationals. -/
theorem roundQ_idem {q : ℚ} (hq : 0 < q) (hr : Rep q)
    (hlo : (2:ℚ) ^ (-800:ℤ) ≤ q) (hhi : q < (2:ℚ) ^ (800:ℤ)) :
    roundQ (roundQ q) = roundQ q := by
  obtain ⟨-, s, hs0, hs53, hshape⟩ := roundQ_spec hq hr
  obtain ⟨heb1, heb2⟩ := ratExp_bounds hq hr hlo hhi
  rw [hshape]
  exact roundQ_dyadic hs0 hs53 _ (rep_of_dyadic hs53 (by omega) (by omega))

end F64

/-! ## The `colorize` / `decolorize` per-pixel pipeline over the `f64` model

The pair `(m, M)` stands for the `(min_depth, max_depth)` `u16` values read
from the settings at the top of `colorize`/`decolorize`
(`min_depth as u16`, `max_depth.min(u16::MAX as u32) as u16`,
imp.rs:126-132 and 200-206). -/

namespace DColorizer

/-- `min_disparity = 1f64 / max_depth as f64` (imp.rs:134, 208). -/
def min_disparity (M : ℕ) : ℚ := F64.fdiv 1 (F64.ofNat M)

/-- `max_disparity = 1f64 / min_depth as f64` (imp.rs:134, 208). -/
def max_disparity (m : ℕ) : ℚ := F64.fdiv 1 (F64.ofNat m)

/-- `f64::clamp`: `if self < min { min } else if self > max { max } else
{ self }` (imp.rs:151). -/
def clampF (x lo hi : ℚ) : ℚ := if x < lo then lo else if hi < x then hi else x

/-- Decode two depth bytes into a `u16` in the declared byte order
(imp.rs:142-146). -/
def decodeU16 (big_endian : Bool) (b0 b1 : ℕ) : ℕ :=
  if big_endian then (b0 <<< 8) ||| b1 else b0 ||| (b1 <<< 8)

/-- Per-pixel disparity (imp.rs:147-151): depth `0` maps to
`max_disparity`, any other depth to `1/depth`, clamped into
`[min_disparity, max_disparity]`. -/
def disparityOfDepth (m M depth : ℕ) : ℚ :=
  clampF
    (match depth with
      | 0 => max_disparity m
      | _ => F64.fdiv 1 (F64.ofNat depth))
    (min_disparity M) (max_disparity m)

/-- The truncated normalized scalar
`(1529 * (disparity - min_disparity) / (max_disparity - min_disparity)) as isize`
(imp.rs:153-155). -/
def dNormalOfDepth (m M depth : ℕ) : ℤ :=
  F64.castIsize (F64.fdiv
    (F64.fmul 1529 (F64.fsub (disparityOfDepth m M depth) (min_disparity M)))
    (F64.fsub (max_disparity m) (min_disparity M)))

/-- The three RGB bytes `colorize` writes for one decoded depth value. -/
def colorizeDepth (m M depth : ℕ) : Option (ℕ × ℕ × ℕ) :=
  rgbOfScalar (dNormalOfDepth m M depth)

/-- The three RGB bytes `colorize` writes for one input pixel
(imp.rs:139-187). -/
def colorizePixel (m M : ℕ) (be : Bool) (b0 b1 : ℕ) : Option (ℕ × ℕ × ℕ) :=
  colorizeDepth m M (decodeU16 be b0 b1)

/-- `u16::to_be_bytes` / `u16::to_le_bytes` (imp.rs:238-242). -/
def encodeU16 (be : Bool) (v : ℕ) : ℕ × ℕ :=
  if be then (v / 256, v % 256) else (v % 256, v / 256)

/-- The decoded depth value `decolorize` computes from a recovered
normalized scalar (imp.rs:234-237): invert the normalization to a
disparity, reciprocate, saturating-cast to `usize` and clamp into
`[0, u16::MAX]` (the lower clamp bound `0` is vacuous on `ℕ`). -/
def depthOfDnormal (m M dn : ℕ) : ℕ :=
  min (F64.castUsize (F64.fdiv 1
    (F64.fadd (min_disparity M)
      (F64.fmul (F64.fsub (max_disparity m) (min_disparity M))
        (F64.fdiv (F64.ofNat dn) 1529))))) 65535

/-- The two depth bytes `decolorize` writes for one RGB pixel
(imp.rs:213-243). -/
def decolorizePixel (m M : ℕ) (be : Bool) (r g b : ℕ) : ℕ × ℕ :=
  encodeU16 be (depthOfDnormal m M (dnormalOfRgb r g b))

end DColorizer

section PipelineChecks

open DColorizer

example : dNormalOfDepth 5 263 0 = 1528 := by decide
example : dNormalOfDepth 1 65535 2 = 764 := by decide
example : depthOfDnormal 1 93 0 = 92 := by decide
example : colorizePixel 1 65535 false 2 0 = some (0, 1, 0) := by decide
example : decolorizePixel 1 65535 false 0 1 0 = (255, 255) := by decide

end PipelineChecks

/-! ## Characterization of the `& 0xFF` mask -/

namespace DColorizer

theorem nat_and_255 (m : ℕ) : m &&& 255 = m % 256 := by
  apply Nat.eq_of_testBit_eq
  intro i
  have h256 : (256 : ℕ) = 2 ^ 8 := by norm_num
  rw [Nat.testBit_land, h256, Nat.testBit_mod_two_pow]
  by_cases hi : i < 8
  · have h255 : (255 : ℕ).testBit i = true := by interval_cases i <;> decide
    simp [h255, hi]
  · have hpow : (255 : ℕ) < 2 ^ i := by
      calc (255 : ℕ) < 2 ^ 8 := by norm_num
      _ ≤ 2 ^ i := Nat.pow_le_pow_right (by norm_num) (by omega)
    have h255 : (255 : ℕ).testBit i = false := Nat.testBit_eq_false_of_lt hpow
    simp [h255, hi]

theorem nat_ldiff_255 (m : ℕ) : Nat.ldiff 255 m = 255 - m % 256 := by
  have hxor : ∀ x : ℕ, x ≤ 255 → 255 - x = 255 ^^^ x := by decide
  rw [hxor (m % 256) (by omega)]
  apply Nat.eq_of_testBit_eq
  intro i
  have h256 : (256 : ℕ) = 2 ^ 8 := by norm_num
  rw [Nat.testBit_ldiff, Nat.testBit_xor, h256, Nat.testBit_mod_two_pow]
  by_cases hi : i < 8
  · have h255 : (255 : ℕ).testBit i = true := by interval_cases i <;> decide
    cases hm : m.testBit i <;> simp [h255, hi, hm]
  · have hpow : (255 : ℕ) < 2 ^ i := by
      calc (255 : ℕ) < 2 ^ 8 := by norm_num
      _ ≤ 2 ^ i := Nat.pow_le_pow_right (by norm_num) (by omega)
    have h255 : (255 : ℕ).testBit i = false := Nat.testBit_eq_false_of_lt hpow
    simp [h255, hi]

/-- The two's-complement `& 0xFF` mask is the nonnegative residue
modulo `2^8`. -/
theorem maskByte_eq_emod (v : ℤ) : maskByte v = (v % 256).toNat := by
  unfold maskByte
  match v with
  | Int.ofNat m =>
    have hland : Int.land (Int.ofNat m) 255 = Int.ofNat (m &&& 255) := rfl
    rw [hland, nat_and_255]
    simp only [Int.ofNat_eq_natCast]
    omega
  | Int.negSucc m =>
    have hland : Int.land (Int.negSucc m) 255 = Int.ofNat (Nat.ldiff 255 m) := rfl
    rw [hland, nat_ldiff_255]
    simp only [Int.ofNat_eq_natCast, Int.negSucc_eq]
    omega

theorem rRaw_eval (n : ℤ) (h0 : 0 ≤ n) (h1 : n ≤ 1529) :
    rRaw n = some (if n ≤ 255 then 255 else if n ≤ 510 then 255 - n
      else if n ≤ 1020 then 0 else if n ≤ 1275 then n - 1020 else 255) := by
  unfold rRaw
  split_ifs <;>
    first
    | rfl
    | (simp only [Option.some.injEq]; omega)
    | (exfalso; omega)

theorem gRaw_eval (n : ℤ) (h0 : 0 ≤ n) (h1 : n ≤ 1529) :
    gRaw n = some (if n ≤ 255 then n else if n ≤ 510 then 255
      else if n ≤ 765 then 765 - n else 0) := by
  unfold gRaw
  split_ifs <;>
    first
    | rfl
    | (simp only [Option.some.injEq]; omega)
    | (exfalso; omega)

theorem bRaw_eval (n : ℤ) (h0 : 0 ≤ n) (h1 : n ≤ 1529) :
    bRaw n = some (if n ≤ 765 then 0 else if n ≤ 1020 then n - 765
      else if n ≤ 1275 then 255 else 1529 - n) := by
  unfold bRaw
  split_ifs <;>
    first
    | rfl
    | (simp only [Option.some.injEq]; omega)
    | (exfalso; omega)

/-- Evaluated form of the RGB bytes `colorize` stores for a scalar in
`[0, 1529]`: the six-segment ramps with the `& 0xFF` wraparound applied
(the only segment whose raw value is negative is `256..=510` for R,
where the mask wraps `255 - n` to `511 - n`). -/
theorem rgbOfScalar_eval (n : ℤ) (h0 : 0 ≤ n) (h1 : n ≤ 1529) :
    rgbOfScalar n = some
      ((if n ≤ 255 then 255 else if n ≤ 510 then (511 - n).toNat
        else if n ≤ 1020 then 0 else if n ≤ 1275 then (n - 1020).toNat else 255),
       (if n ≤ 255 then n.toNat else if n ≤ 510 then 255
        else if n ≤ 765 then (765 - n).toNat else 0),
       (if n ≤ 765 then 0 else if n ≤ 1020 then (n - 765).toNat
        else if n ≤ 1275 then 255 else (1529 - n).toNat)) := by
  unfold rgbOfScalar
  rw [rRaw_eval n h0 h1, gRaw_eval n h0 h1, bRaw_eval n h0 h1]
  simp only [maskByte_eq_emod, Option.some.injEq, Prod.mk.injEq]
  split_ifs <;> refine ⟨by omega, by omega, by omega⟩

end DColorizer

/-! ## Claim C1 -/

namespace DColorizer

/-- C1: for every normalized scalar `d_normal` in `[0, 1529]`, `colorize`
computes R, G, B by the six-segment piecewise-linear ramps over the exact
segment boundaries 0–255, 256–510, 511–765, 766–1020, 1021–1275, 1276–1529
(R: 255, 255−d, 0, 0, d−1020, 255; G: d, 255, 765−d, 0; B: 0, d−765, 255,
1529−d), and each channel's raw integer result is truncated with a bitwise
`& 0xFF` mask — two's-complement wraparound, so the negative raw value
`255 − d_normal` on `256..=510` wraps to `511 − d_normal ≠ 0` — not a
saturating clamp (which would store `0` there). -/
theorem colorize_ramps_exact_with_wraparound (n : ℤ) (h0 : 0 ≤ n) (h1 : n ≤ 1529) :
    rgbOfScalar n = some
      ((((if (0 ≤ n ∧ n ≤ 255) ∨ (1276 ≤ n ∧ n ≤ 1529) then 255
          else if 256 ≤ n ∧ n ≤ 510 then 255 - n
          else if 511 ≤ n ∧ n ≤ 1020 then 0 else n - 1020) % 256).toNat),
       (((if 0 ≤ n ∧ n ≤ 255 then n else if 256 ≤ n ∧ n ≤ 510 then 255
          else if 511 ≤ n ∧ n ≤ 765 then 765 - n else 0) % 256).toNat),
       (((if 0 ≤ n ∧ n ≤ 765 then 0 else if 766 ≤ n ∧ n ≤ 1020 then n - 765
          else if 1021 ≤ n ∧ n ≤ 1275 then 255 else 1529 - n) % 256).toNat))
    ∧ (256 ≤ n ∧ n ≤ 510 →
        (rgbOfScalar n).map (fun p => p.1) = some (511 - n).toNat ∧
          (511 - n).toNat ≠ 0) := by
  constructor
  · rw [rgbOfScalar_eval n h0 h1]
    simp only [Option.some.injEq, Prod.mk.injEq]
    refine ⟨?_, ?_, ?_⟩ <;> split_ifs <;> omega
  · intro h
    rw [rgbOfScalar_eval n h0 h1]
    simp only [Option.map_some']
    constructor
    · simp only [Option.some.injEq]
      split_ifs <;> omega
    · omega

/-- Witness for C1 at the wraparound segment value `d_normal = 300`. -/
theorem colorize_ramps_exact_with_wraparound_witness :
    ((0 : ℤ) ≤ 300 ∧ (300 : ℤ) ≤ 1529) ∧
      (rgbOfScalar 300 = some
        ((((if ((0:ℤ) ≤ 300 ∧ (300:ℤ) ≤ 255) ∨ ((1276:ℤ) ≤ 300 ∧ (300:ℤ) ≤ 1529)
            then (255:ℤ) else if (256:ℤ) ≤ 300 ∧ (300:ℤ) ≤ 510 then 255 - 300
            else if (511:ℤ) ≤ 300 ∧ (300:ℤ) ≤ 1020 then 0
            else 300 - 1020) % 256).toNat),
         (((if (0:ℤ) ≤ 300 ∧ (300:ℤ) ≤ 255 then (300:ℤ)
            else if (256:ℤ) ≤ 300 ∧ (300:ℤ) ≤ 510 then 255
            else if (511:ℤ) ≤ 300 ∧ (300:ℤ) ≤ 765 then 765 - 300
            else 0) % 256).toNat),
         (((if (0:ℤ) ≤ 300 ∧ (300:ℤ) ≤ 765 then (0:ℤ)
            else if (766:ℤ) ≤ 300 ∧ (300:ℤ) ≤ 1020 then 300 - 765
            else if (1021:ℤ) ≤ 300 ∧ (300:ℤ) ≤ 1275 then 255
            else 1529 - 300) % 256).toNat))
      ∧ ((256:ℤ) ≤ 300 ∧ (300:ℤ) ≤ 510 →
          (rgbOfScalar 300).map (fun p => p.1) = some ((511:ℤ) - 300).toNat ∧
            ((511:ℤ) - 300).toNat ≠ 0)) :=
  ⟨⟨by norm_num, by norm_num⟩,
    colorize_ramps_exact_with_wraparound 300 (by norm_num) (by norm_num)⟩

/-- Complete per-segment description of the scalar-level round trip
`decolorize ∘ colorize`: exact on `0..=255`, `1021..=1274` and `1276..=1528`;
one step low on `256..=510` and at `1275`; collapses `511..=1019` to `0`
(their colors have `R+G+B < 255`); exact at `1020`; and collapses `1529`
(pure red, ambiguous with scalar `0`) to `0`. -/
theorem scalarRoundTrip_eval (n : ℕ) (h : n ≤ 1529) :
    scalarRoundTrip n = some (
      if n ≤ 255 then n
      else if n ≤ 510 then n - 1
      else if n ≤ 1019 then 0
      else if n = 1020 then 1020
      else if n ≤ 1274 then n
      else if n = 1275 then 1274
      else if n ≤ 1528 then n
      else 0) := by
  unfold scalarRoundTrip
  rw [rgbOfScalar_eval (n : ℤ) (by omega) (by omega)]
  simp only [Option.map_some', Option.some.injEq]
  rcases (by omega :
      n ≤ 255 ∨ (256 ≤ n ∧ n ≤ 510) ∨ (511 ≤ n ∧ n ≤ 1019) ∨ n = 1020 ∨
      (1021 ≤ n ∧ n ≤ 1274) ∨ n = 1275 ∨ (1276 ≤ n ∧ n ≤ 1529)) with
    hs | hs | hs | hs | hs | hs | hs
  · rw [if_pos (show ((n : ℕ) : ℤ) ≤ 255 by omega),
      if_pos (show ((n : ℕ) : ℤ) ≤ 255 by omega),
      if_pos (show ((n : ℕ) : ℤ) ≤ 765 by omega),
      if_pos (show n ≤ 255 by omega)]
    unfold dnormalOfRgb wsub wadd
    split_ifs <;> omega
  · have h1 : ¬((n : ℕ) : ℤ) ≤ 255 := by omega
    have h2 : ((n : ℕ) : ℤ) ≤ 510 := by omega
    have h3 : ((n : ℕ) : ℤ) ≤ 765 := by omega
    rw [if_neg h1, if_pos h2, if_neg h1, if_pos h2, if_pos h3,
      if_neg (show ¬ n ≤ 255 by omega), if_pos (show n ≤ 510 by omega)]
    unfold dnormalOfRgb wsub wadd
    split_ifs <;> omega
  · have h1 : ¬((n : ℕ) : ℤ) ≤ 255 := by omega
    have h2 : ¬((n : ℕ) : ℤ) ≤ 510 := by omega
    have h4 : ((n : ℕ) : ℤ) ≤ 1020 := by omega
    rw [if_neg h1, if_neg h2, if_pos h4, if_neg h1, if_neg h2,
      if_neg (show ¬ n ≤ 255 by omega), if_neg (show ¬ n ≤ 510 by omega),
      if_pos (show n ≤ 1019 by omega)]
    unfold dnormalOfRgb wsub wadd
    split_ifs <;> omega
  · subst hs
    decide
  · have h1 : ¬((n : ℕ) : ℤ) ≤ 255 := by omega
    have h2 : ¬((n : ℕ) : ℤ) ≤ 510 := by omega
    have h3 : ¬((n : ℕ) : ℤ) ≤ 765 := by omega
    have h4 : ¬((n : ℕ) : ℤ) ≤ 1020 := by omega
    have h5 : ((n : ℕ) : ℤ) ≤ 1275 := by omega
    rw [if_neg h1, if_neg h2, if_neg h4, if_pos h5, if_neg h1, if_neg h2, if_neg h3,
      if_neg h3, if_neg h4, if_pos h5,
      if_neg (show ¬ n ≤ 255 by omega), if_neg (show ¬ n ≤ 510 by omega),
      if_neg (show ¬ n ≤ 1019 by omega), if_neg (show ¬ n = 1020 by omega),
      if_pos (show n ≤ 1274 by omega)]
    unfold dnormalOfRgb wsub wadd
    split_ifs <;> omega
  · subst hs
    decide
  · have h1 : ¬((n : ℕ) : ℤ) ≤ 255 := by omega
    have h2 : ¬((n : ℕ) : ℤ) ≤ 510 := by omega
    have h3 : ¬((n : ℕ) : ℤ) ≤ 765 := by omega
    have h4 : ¬((n : ℕ) : ℤ) ≤ 1020 := by omega
    have h5 : ¬((n : ℕ) : ℤ) ≤ 1275 := by omega
    rw [if_neg h1, if_neg h2, if_neg h4, if_neg h5, if_neg h1, if_neg h2, if_neg h3,
      if_neg h3, if_neg h4, if_neg h5,
      if_neg (show ¬ n ≤ 255 by omega), if_neg (show ¬ n ≤ 510 by omega),
      if_neg (show ¬ n ≤ 1019 by omega), if_neg (show ¬ n = 1020 by omega),
      if_neg (show ¬ n ≤ 1274 by omega), if_neg (show ¬ n = 1275 by omega)]
    unfold dnormalOfRgb wsub wadd
    split_ifs <;> omega

end DColorizer

section ScalarChecks

open DColorizer

set_option maxRecDepth 4000

example : rgbOfScalar 764 = some (0, 1, 0) := by decide
example : scalarRoundTrip 764 = some 0 := by decide
example : scalarRoundTrip 100 = some 100 := by decide
example : scalarRoundTrip 1275 = some 1274 := by decide
example : scalarRoundTrip 1400 = some 1400 := by decide

end ScalarChecks

/-! ## Below-threshold decoding (claim C8) -/

namespace DColorizer

theorem min_disparity_eq {M : ℕ} (h1 : 1 ≤ M) (h3 : M ≤ 65535) :
    min_disparity M = F64.roundQ (1 / (M:ℚ)) := by
  unfold min_disparity
  rw [F64.ofNat_eq_self (show M ≤ 2 ^ 53 by
    have : (65535:ℕ) ≤ 2 ^ 53 := by norm_num
    omega)]
  unfold F64.fdiv
  rw [if_neg (show ((M:ℕ):ℚ) ≠ 0 by exact_mod_cast (by omega : M ≠ 0))]

/-- The depth value `decolorize` reconstructs for normalized scalar `0` is
within one of `max_depth`: the two reciprocal roundings can land just below
the integer `M`, and the truncating cast then yields `M - 1`. -/
theorem depthOfDnormal_zero_bounds (m M : ℕ) (h1 : 1 ≤ M) (h3 : M ≤ 65535) :
    M - 1 ≤ depthOfDnormal m M 0 ∧ depthOfDnormal m M 0 ≤ M := by
  have hu : ((2:ℚ) ^ (-53:ℤ)) = 1 / 9007199254740992 := by norm_num
  have hMq1 : (1:ℚ) ≤ (M:ℚ) := by exact_mod_cast h1
  have hMq2 : (M:ℚ) ≤ 65535 := by exact_mod_cast h3
  have hMq0 : (0:ℚ) < (M:ℚ) := by linarith
  set x : ℚ := 1 / (M:ℚ) with hxdef
  have hx0 : 0 < x := by rw [hxdef]; positivity
  have hx_val : x * (M:ℚ) = 1 := by
    rw [hxdef]
    field_simp
  have hxrep : F64.Rep x := by
    rw [hxdef]
    have h := F64.rep_div_nat (a := 1) (b := M)
      (by norm_num [F64.expFuel])
      (lt_of_le_of_lt h3 (by norm_num [F64.expFuel]))
    rw [Nat.cast_one] at h
    exact h
  have hxlo : (2:ℚ) ^ (-17:ℤ) ≤ x := by
    rw [hxdef, show ((2:ℚ) ^ (-17:ℤ)) = 1 / 131072 by norm_num,
      div_le_div_iff₀ (by norm_num) hMq0]
    linarith
  have hxhi : x < (2:ℚ) ^ (1:ℤ) := by
    rw [hxdef, show ((2:ℚ) ^ (1:ℤ)) = 2 by norm_num]
    rw [div_lt_iff₀ hMq0]
    nlinarith
  have hmind : min_disparity M = F64.roundQ x := by
    rw [min_disparity_eq h1 h3, hxdef]
  obtain ⟨y, hydef⟩ : ∃ t : ℚ, F64.roundQ x = t := ⟨_, rfl⟩
  have hy_err := F64.roundQ_err hx0 hxrep
  rw [hydef, hu] at hy_err
  obtain ⟨hy_lo, hy_hi⟩ := hy_err
  have hy0 : 0 < y := by
    rw [← hydef]
    exact F64.roundQ_pos hx0 hxrep
  have hofnat0 : F64.ofNat 0 = 0 := by
    unfold F64.ofNat
    rw [Nat.cast_zero, F64.roundQ_zero]
  have hdiv0 : F64.fdiv 0 1529 = 0 := by
    unfold F64.fdiv
    rw [if_neg (by norm_num : (1529:ℚ) ≠ 0), zero_div, F64.roundQ_zero]
  have hmul0 : ∀ t : ℚ, F64.fmul t 0 = 0 := fun t => by
    unfold F64.fmul
    rw [mul_zero, F64.roundQ_zero]
  have hidem : F64.roundQ y = y := by
    rw [← hydef]
    exact F64.roundQ_idem hx0 hxrep
      (le_trans (by
        apply zpow_le_zpow_right₀ (by norm_num : (1:ℚ) ≤ 2)
        norm_num) hxlo)
      (lt_of_lt_of_le hxhi (by
        apply zpow_le_zpow_right₀ (by norm_num : (1:ℚ) ≤ 2)
        norm_num))
  have hadd : F64.fadd (min_disparity M) 0 = y := by
    rw [hmind]
    unfold F64.fadd
    rw [add_zero, hydef]
    exact hidem
  have hdod : depthOfDnormal m M 0 = min (F64.castUsize (F64.fdiv 1 y)) 65535 := by
    unfold depthOfDnormal
    rw [hofnat0, hdiv0, hmul0, hadd]
  have hyne : y ≠ 0 := ne_of_gt hy0
  have hfd : F64.fdiv 1 y = F64.roundQ (1 / y) := by
    unfold F64.fdiv
    rw [if_neg hyne]
  obtain ⟨-, sg, hs0, hs53, hshape⟩ := F64.roundQ_spec hx0 hxrep
  rw [hydef] at hshape
  obtain ⟨he1, he2⟩ := F64.ratExp_bounds hx0 hxrep hxlo hxhi
  have hrep1y : F64.Rep (1 / y) := by
    have hA : ((52 - F64.ratExp x).toNat : ℤ) = 52 - F64.ratExp x :=
      Int.toNat_of_nonneg (by omega)
    have h1y : 1 / y = ((2 ^ (52 - F64.ratExp x).toNat : ℕ) : ℚ) / (sg : ℚ) := by
      rw [hshape, one_div, mul_inv, ← zpow_neg]
      push_cast
      rw [← zpow_natCast (2:ℚ) (52 - F64.ratExp x).toNat, hA]
      rw [div_eq_mul_inv, show -(F64.ratExp x - 52) = 52 - F64.ratExp x by ring]
      ring
    rw [h1y]
    apply F64.rep_div_nat
    · calc 2 ^ (52 - F64.ratExp x).toNat ≤ 2 ^ 69 :=
          Nat.pow_le_pow_right (by norm_num) (by omega)
      _ < 2 ^ F64.expFuel := Nat.pow_lt_pow_right (by norm_num) (by norm_num [F64.expFuel])
    · exact lt_of_le_of_lt hs53 (Nat.pow_lt_pow_right (by norm_num) (by norm_num [F64.expFuel]))
  have h1y0 : 0 < 1 / y := by positivity
  have hz_err := F64.roundQ_err h1y0 hrep1y
  obtain ⟨z, hzdef⟩ : ∃ t : ℚ, F64.roundQ (1 / y) = t := ⟨_, rfl⟩
  rw [hzdef, hu] at hz_err
  obtain ⟨hz_lo', hz_hi'⟩ := hz_err
  have hww : y * (1 / y) = 1 := by field_simp
  have hw0 : 0 < 1 / y := h1y0
  have t1 : x * (1 - 1 / 9007199254740992) * (1 / y) ≤ 1 := by
    have h := mul_le_mul_of_nonneg_right hy_lo hw0.le
    rw [hww] at h
    exact h
  have t2 : (M:ℚ) * (x * (1 - 1 / 9007199254740992) * (1 / y)) ≤ (M:ℚ) * 1 :=
    mul_le_mul_of_nonneg_left t1 hMq0.le
  have hstep1 : (1 / y) * (1 - 1 / 9007199254740992) ≤ (M:ℚ) := by nlinarith [t2, hx_val]
  have t3 : 1 ≤ x * (1 + 1 / 9007199254740992) * (1 / y) := by
    have h := mul_le_mul_of_nonneg_right hy_hi hw0.le
    rw [hww] at h
    exact h
  have t4 : (M:ℚ) * 1 ≤ (M:ℚ) * (x * (1 + 1 / 9007199254740992) * (1 / y)) :=
    mul_le_mul_of_nonneg_left t3 hMq0.le
  have hstep2 : (M:ℚ) ≤ (1 / y) * (1 + 1 / 9007199254740992) := by nlinarith [t4, hx_val]
  have hw_bound : (1 / y) ≤ 131070 := by linarith
  have hz_hi : z < (M:ℚ) + 1 := by linarith
  have hz_lo : (M:ℚ) - 1 < z := by linarith
  have hz0 : (0:ℚ) ≤ z := by linarith
  have hfl_lo : (M:ℤ) - 1 ≤ ⌊z⌋ := by
    apply Int.le_floor.mpr
    push_cast
    linarith
  have hfl_hi : ⌊z⌋ ≤ (M:ℤ) := by
    have h := Int.floor_le z
    have h1 : ((⌊z⌋:ℤ):ℚ) < ((M:ℤ):ℚ) + 1 := by
      push_cast
      push_cast at h
      linarith
    have h2 : ⌊z⌋ < (M:ℤ) + 1 := by exact_mod_cast h1
    omega
  have hcast : F64.castUsize z = ⌊z⌋.toNat := by
    unfold F64.castUsize
    rw [if_neg (not_lt.mpr hz0)]
    apply min_eq_left
    omega
  rw [hdod, hfd, hzdef, hcast]
  omega

end DColorizer

/-! ## Small algebraic facts about the `f64` operations -/

namespace F64

theorem ofNat_zero : ofNat 0 = 0 := by
  unfold ofNat
  rw [Nat.cast_zero, roundQ_zero]

theorem fdiv_zero_num (b : ℚ) : fdiv 0 b = 0 := by
  unfold fdiv
  split_ifs
  · rfl
  · rw [zero_div, roundQ_zero]

theorem fmul_zero (t : ℚ) : fmul t 0 = 0 := by
  unfold fmul
  rw [mul_zero, roundQ_zero]

end F64

namespace DColorizer

/-- `min_disparity` is an `f64` value, hence a fixed point of the rounding. -/
theorem min_disparity_fixed {M : ℕ} (h1 : 1 ≤ M) (h3 : M ≤ 65535) :
    F64.roundQ (min_disparity M) = min_disparity M := by
  have hMq1 : (1:ℚ) ≤ (M:ℚ) := by exact_mod_cast h1
  have hMq2 : (M:ℚ) ≤ 65535 := by exact_mod_cast h3
  have hMq0 : (0:ℚ) < (M:ℚ) := by linarith
  have hx0 : 0 < 1 / (M:ℚ) := by positivity
  have hxrep : F64.Rep (1 / (M:ℚ)) := by
    have h := F64.rep_div_nat (a := 1) (b := M)
      (by norm_num [F64.expFuel])
      (lt_of_le_of_lt h3 (by norm_num [F64.expFuel]))
    rw [Nat.cast_one] at h
    exact h
  have hxlo : (2:ℚ) ^ (-17:ℤ) ≤ 1 / (M:ℚ) := by
    rw [show ((2:ℚ) ^ (-17:ℤ)) = 1 / 131072 by norm_num,
      div_le_div_iff₀ (by norm_num) hMq0]
    linarith
  have hxhi : 1 / (M:ℚ) < (2:ℚ) ^ (1:ℤ) := by
    rw [show ((2:ℚ) ^ (1:ℤ)) = 2 by norm_num, div_lt_iff₀ hMq0]
    nlinarith
  rw [min_disparity_eq h1 h3]
  exact F64.roundQ_idem hx0 hxrep
    (le_trans (by
      apply zpow_le_zpow_right₀ (by norm_num : (1:ℚ) ≤ 2)
      norm_num) hxlo)
    (lt_of_lt_of_le hxhi (by
      apply zpow_le_zpow_right₀ (by norm_num : (1:ℚ) ≤ 2)
      norm_num))

end DColorizer

/-! ## Claims C2, C3 and C8 -/

namespace DColorizer

/-- Modelled from the spec's normalization formula: the exact (real-valued)
depth that corresponds to a normalized scalar `n` under the 1529-step
normalization with clamp bounds `[m, M]`; used only to quantify the claim's
"depth span of one normalization step". -/
def specDepthOfScalar (m M : ℕ) (n : ℚ) : ℚ :=
  1 / (1 / (M:ℚ) + (1 / (m:ℚ) - 1 / (M:ℚ)) * n / 1529)

/-- C2 counterexample: with bounds `[1, 65535]`, the single depth sample `2`
(normalized scalar 764, inside the single monotonic colormap segment
`511..=765`) colorizes to `(0, 1, 0)`, whose channel sum is below the 255
threshold, so `decolorize` returns the max-depth value 65535 — an error of
65533 depth units, vastly exceeding the span of one normalization step at
that value (which is below one depth unit). -/
theorem roundtrip_monotonic_segment_counterexample :
    dNormalOfDepth 1 65535 2 = 764
    ∧ colorizePixel 1 65535 false 2 0 = some (0, 1, 0)
    ∧ decolorizePixel 1 65535 false 0 1 0 = encodeU16 false 65535
    ∧ decodeU16 false 255 255 = 65535
    ∧ specDepthOfScalar 1 65535 763 - specDepthOfScalar 1 65535 765 < 1
    ∧ (65535 : ℤ) - 2 > 1 :=
  ⟨by decide, by decide, by decide, by decide, by decide, by decide⟩

theorem rgbOfScalar_some_bounds (z : ℤ) (p : ℕ × ℕ × ℕ)
    (h : rgbOfScalar z = some p) : 0 ≤ z ∧ z ≤ 1529 := by
  by_cases hz : 0 ≤ z ∧ z ≤ 1529
  · exact hz
  · exfalso
    have hr : rRaw z = none := by
      unfold rRaw
      rw [if_neg (by omega), if_neg (by omega), if_neg (by omega), if_neg (by omega)]
    have hg : gRaw z = none := by
      unfold gRaw
      rw [if_neg (by omega), if_neg (by omega), if_neg (by omega), if_neg (by omega)]
    have hb : bRaw z = none := by
      unfold bRaw
      rw [if_neg (by omega), if_neg (by omega), if_neg (by omega), if_neg (by omega)]
    unfold rgbOfScalar at h
    rw [hr, hg, hb] at h
    exact Option.noConfusion h

/-- C2 (amended): the program's pixel-level round trip factors through the
colormap scalar: whenever `colorize` outputs an RGB pixel, feeding that
pixel back through `decolorize` writes `encodeU16` of `depthOfDnormal` of
the recovered scalar, and the recovered scalar is `scalarRoundTrip` of the
scalar `colorize` computed (which is in `[0, 1529]`).  The scalar map
recovers `n` exactly on `0..=255`, `1021..=1274` and `1276..=1528`,
recovers `n - 1` (one normalization step low) on `256..=510` and at
`1275`, and keeps `1020`; but it collapses every `n` in `511..=1019`
(whose colors have `R+G+B < 255`) and `n = 1529` (pure red) to scalar `0`,
which decodes to the maximum-depth value, so the claimed one-step
round-trip bound fails on sub-ranges mapped into the third and fourth
colormap segments even though those segments are monotonic. -/
theorem roundtrip_scalar_segments (m M : ℕ) (be : Bool) (b0 b1 n : ℕ)
    (h : n ≤ 1529) :
    (∀ r g b : ℕ, colorizePixel m M be b0 b1 = some (r, g, b) →
        decolorizePixel m M be r g b
          = encodeU16 be (depthOfDnormal m M (dnormalOfRgb r g b))
        ∧ ∃ k : ℕ, k ≤ 1529
            ∧ (k : ℤ) = dNormalOfDepth m M (decodeU16 be b0 b1)
            ∧ scalarRoundTrip k = some (dnormalOfRgb r g b))
    ∧ (n ≤ 255 → scalarRoundTrip n = some n)
    ∧ (256 ≤ n → n ≤ 510 → scalarRoundTrip n = some (n - 1))
    ∧ (511 ≤ n → n ≤ 1019 → scalarRoundTrip n = some 0)
    ∧ (n = 1020 → scalarRoundTrip n = some 1020)
    ∧ (1021 ≤ n → n ≤ 1274 → scalarRoundTrip n = some n)
    ∧ (n = 1275 → scalarRoundTrip n = some 1274)
    ∧ (1276 ≤ n → n ≤ 1528 → scalarRoundTrip n = some n)
    ∧ (n = 1529 → scalarRoundTrip n = some 0) := by
  have he := scalarRoundTrip_eval n h
  constructor
  · intro r g b hp
    have hp' : rgbOfScalar (dNormalOfDepth m M (decodeU16 be b0 b1))
        = some (r, g, b) := hp
    obtain ⟨hz0, hz1⟩ := rgbOfScalar_some_bounds _ _ hp'
    refine ⟨rfl, (dNormalOfDepth m M (decodeU16 be b0 b1)).toNat, by omega,
      Int.toNat_of_nonneg hz0, ?_⟩
    unfold scalarRoundTrip
    rw [Int.toNat_of_nonneg hz0, hp']
    rfl
  · refine ⟨?_, ?_, ?_, ?_, ?_, ?_, ?_, ?_⟩ <;>
      (intros
       rw [he]
       simp only [Option.some.injEq]
       split_ifs <;> omega)

/-- Witness for C2 (amended) at bounds `[1, 65535]`, the little-endian
depth sample `2` (bytes `(2, 0)`), and the scalar `n = 300` (recovered one
step low). -/
theorem roundtrip_scalar_segments_witness :
    (300 ≤ 1529) ∧
      ((∀ r g b : ℕ, colorizePixel 1 65535 false 2 0 = some (r, g, b) →
          decolorizePixel 1 65535 false r g b
            = encodeU16 false (depthOfDnormal 1 65535 (dnormalOfRgb r g b))
          ∧ ∃ k : ℕ, k ≤ 1529
              ∧ (k : ℤ) = dNormalOfDepth 1 65535 (decodeU16 false 2 0)
              ∧ scalarRoundTrip k = some (dnormalOfRgb r g b))
      ∧ (300 ≤ 255 → scalarRoundTrip 300 = some 300)
      ∧ (256 ≤ 300 → 300 ≤ 510 → scalarRoundTrip 300 = some (300 - 1))
      ∧ (511 ≤ 300 → 300 ≤ 1019 → scalarRoundTrip 300 = some 0)
      ∧ (300 = 1020 → scalarRoundTrip 300 = some 1020)
      ∧ (1021 ≤ 300 → 300 ≤ 1274 → scalarRoundTrip 300 = some 300)
      ∧ (300 = 1275 → scalarRoundTrip 300 = some 1274)
      ∧ (1276 ≤ 300 → 300 ≤ 1528 → scalarRoundTrip 300 = some 300)
      ∧ (300 = 1529 → scalarRoundTrip 300 = some 0)) :=
  ⟨by norm_num, roundtrip_scalar_segments 1 65535 false 2 0 300 (by norm_num)⟩

/-- C3 counterexample: with bounds `(min_depth, max_depth) = (5, 263)`, a
depth-0 pixel yields `d_normal = 1528`, not `1529`: the two `f64` rounding
steps in `1529 * (max_disparity - min_disparity) / (max_disparity -
min_disparity)` land just below `1529`, and the `as isize` cast truncates. -/
theorem colorize_depth_zero_scalar_counterexample :
    dNormalOfDepth 5 263 0 = 1528 ∧ dNormalOfDepth 5 263 0 ≠ 1529 :=
  ⟨by decide, by decide⟩

/-- C3 (amended): for every bounds with `1 ≤ min_depth ≤ max_depth ≤ 65535`
and either byte order, `colorize` treats a zero depth as having disparity
`max_disparity = 1/min_depth`, any other depth `d` as disparity `1/d`, and
clamps the disparity into `[min_disparity, max_disparity]`; consequently a
depth-0 pixel produces exactly the same RGB bytes as a pixel with depth
equal to `min_depth` (the computed `d_normal` is 1529 up to floating-point
rounding, but can be 1528, so the exact value is not part of the claim). -/
theorem colorize_depth_zero_saturated (m M : ℕ) (h1 : 1 ≤ m) (h2 : m ≤ M) (_h3 : M ≤ 65535) :
    disparityOfDepth m M 0 = clampF (max_disparity m) (min_disparity M) (max_disparity m)
    ∧ (∀ d : ℕ, d ≠ 0 →
        disparityOfDepth m M d =
          clampF (F64.fdiv 1 (F64.ofNat d)) (min_disparity M) (max_disparity m))
    ∧ (∀ (be : Bool) (b0 b1 : ℕ), decodeU16 be b0 b1 = 0 →
        colorizePixel m M be b0 b1 = colorizeDepth m M m) := by
  refine ⟨rfl, ?_, ?_⟩
  · intro d hd
    cases d with
    | zero => exact absurd rfl hd
    | succ d' => rfl
  · intro be b0 b1 hdec
    unfold colorizePixel
    rw [hdec]
    have hdisp : disparityOfDepth m M 0 = disparityOfDepth m M m := by
      cases m with
      | zero => omega
      | succ m' => rfl
    unfold colorizeDepth dNormalOfDepth
    rw [hdisp]

/-- Witness for C3 (amended) at bounds `(1, 2)` with a little-endian zero
pixel. -/
theorem colorize_depth_zero_saturated_witness :
    (1 ≤ 1 ∧ 1 ≤ 2 ∧ 2 ≤ 65535) ∧
      (disparityOfDepth 1 2 0 = clampF (max_disparity 1) (min_disparity 2) (max_disparity 1)
      ∧ (∀ d : ℕ, d ≠ 0 →
          disparityOfDepth 1 2 d =
            clampF (F64.fdiv 1 (F64.ofNat d)) (min_disparity 2) (max_disparity 1))
      ∧ (∀ (be : Bool) (b0 b1 : ℕ), decodeU16 be b0 b1 = 0 →
          colorizePixel 1 2 be b0 b1 = colorizeDepth 1 2 1)) :=
  ⟨⟨by norm_num, by norm_num, by norm_num⟩,
    colorize_depth_zero_saturated 1 2 (by norm_num) (by norm_num) (by norm_num)⟩

/-- C8 counterexample: with `max_depth = 93`, an all-black pixel (channel
sum `0 < 255`) decodes to depth `92`, not `max_depth = 93`: in `f64`,
`1.0 / (1.0 / 93.0)` is `92.99999999999999`, and the `as usize` cast
truncates. -/
theorem decolorize_below_threshold_counterexample :
    decolorizePixel 1 93 false 0 0 0 = (92, 0)
    ∧ encodeU16 false 93 = (93, 0)
    ∧ depthOfDnormal 1 93 0 ≠ 93 :=
  ⟨by decide, by decide, by decide⟩

/-- C8 (amended): for every bounds with `1 ≤ min_depth ≤ max_depth ≤ 65535`
and either byte order, `decolorize` resolves a pixel with `R+G+B < 255` to
normalized value `0`, hence disparity `min_disparity = 1/max_depth`; the
depth it writes (in the declared byte order, after the `[0, 65535]` clamp)
is the truncated `f64` reciprocal `1/min_disparity`, which is within one of
`max_depth`: either `max_depth` or `max_depth − 1`. -/
theorem decolorize_below_threshold_max_depth (m M : ℕ) (h1 : 1 ≤ m) (h2 : m ≤ M)
    (h3 : M ≤ 65535) (be : Bool) (r g b : ℕ) (hsum : r + g + b < 255) :
    dnormalOfRgb r g b = 0
    ∧ F64.fadd (min_disparity M)
        (F64.fmul (F64.fsub (max_disparity m) (min_disparity M))
          (F64.fdiv (F64.ofNat 0) 1529)) = min_disparity M
    ∧ decolorizePixel m M be r g b = encodeU16 be (depthOfDnormal m M 0)
    ∧ M - 1 ≤ depthOfDnormal m M 0 ∧ depthOfDnormal m M 0 ≤ M := by
  have hM1 : 1 ≤ M := le_trans h1 h2
  have h0 : dnormalOfRgb r g b = 0 := by
    unfold dnormalOfRgb
    rw [if_pos hsum]
  refine ⟨h0, ?_, ?_, (depthOfDnormal_zero_bounds m M hM1 h3).1,
    (depthOfDnormal_zero_bounds m M hM1 h3).2⟩
  · rw [F64.ofNat_zero, F64.fdiv_zero_num, F64.fmul_zero]
    unfold F64.fadd
    rw [add_zero]
    exact min_disparity_fixed hM1 h3
  · unfold decolorizePixel
    rw [h0]

/-- Witness for C8 (amended) at bounds `(1, 93)` with an all-black pixel. -/
theorem decolorize_below_threshold_max_depth_witness :
    (1 ≤ 1 ∧ 1 ≤ 93 ∧ 93 ≤ 65535 ∧ 0 + 0 + 0 < 255) ∧
      (dnormalOfRgb 0 0 0 = 0
      ∧ F64.fadd (min_disparity 93)
          (F64.fmul (F64.fsub (max_disparity 1) (min_disparity 93))
            (F64.fdiv (F64.ofNat 0) 1529)) = min_disparity 93
      ∧ decolorizePixel 1 93 false 0 0 0 = encodeU16 false (depthOfDnormal 1 93 0)
      ∧ 93 - 1 ≤ depthOfDnormal 1 93 0 ∧ depthOfDnormal 1 93 0 ≤ 93) :=
  ⟨⟨by norm_num, by norm_num, by norm_num, by norm_num⟩,
    decolorize_below_threshold_max_depth 1 93 (by norm_num) (by norm_num) (by norm_num)
      false 0 0 0 (by norm_num)⟩

end DColorizer

/-! ## Further rounding-model lemmas (for the latency EMA) -/

namespace F64

/-- The sum of two (bounded) nonnegative dyadics is representable in the
fuel window. -/
theorem rep_add_dyadic {s1 s2 : ℕ} (hs1 : s1 ≤ 2 ^ 53) (hs2 : s2 ≤ 2 ^ 53)
    {k1 k2 : ℤ} (hk1l : -300 ≤ k1) (hk1h : k1 ≤ 300)
    (hk2l : -300 ≤ k2) (hk2h : k2 ≤ 300) :
    Rep ((s1:ℚ) * (2:ℚ) ^ k1 + (s2:ℚ) * (2:ℚ) ^ k2) := by
  have hterm : ∀ (s : ℕ) (k : ℤ), -300 ≤ k →
      (s:ℚ) * (2:ℚ) ^ k
        = ((s * 2 ^ (k + 300).toNat : ℕ) : ℚ) / ((2 ^ 300 : ℕ) : ℚ) := by
    intro s k hkl
    rw [Nat.cast_pow, Nat.cast_ofNat, ← zpow_natCast (2:ℚ) 300,
      Nat.cast_mul, Nat.cast_pow, Nat.cast_ofNat,
      ← zpow_natCast (2:ℚ) (k + 300).toNat,
      Int.toNat_of_nonneg (by omega : (0:ℤ) ≤ k + 300),
      eq_div_iff (by positivity : ((2:ℚ) ^ (((300:ℕ)):ℤ)) ≠ 0), mul_assoc,
      ← zpow_add₀ (two_ne_zero : (2:ℚ) ≠ 0)]
    norm_num
  rw [hterm s1 k1 hk1l, hterm s2 k2 hk2l, div_add_div_same, ← Nat.cast_add]
  apply rep_div_nat
  · have h1 : s1 * 2 ^ (k1 + 300).toNat ≤ 2 ^ 653 := by
      calc s1 * 2 ^ (k1 + 300).toNat ≤ 2 ^ 53 * 2 ^ 600 :=
            Nat.mul_le_mul hs1 (Nat.pow_le_pow_right (by norm_num) (by omega))
      _ = 2 ^ 653 := by rw [← pow_add]
    have h2 : s2 * 2 ^ (k2 + 300).toNat ≤ 2 ^ 653 := by
      calc s2 * 2 ^ (k2 + 300).toNat ≤ 2 ^ 53 * 2 ^ 600 :=
            Nat.mul_le_mul hs2 (Nat.pow_le_pow_right (by norm_num) (by omega))
      _ = 2 ^ 653 := by rw [← pow_add]
    calc s1 * 2 ^ (k1 + 300).toNat + s2 * 2 ^ (k2 + 300).toNat
        ≤ 2 ^ 653 + 2 ^ 653 := Nat.add_le_add h1 h2
    _ = 2 ^ 654 := by rw [← two_mul, ← pow_succ']
    _ < 2 ^ expFuel := Nat.pow_lt_pow_right (by norm_num) (by unfold expFuel; omega)
  · exact Nat.pow_lt_pow_right (by norm_num) (by unfold expFuel; omega)

/-- Multiplying a `u64`-sized natural by a constant of the form
`p / 2^52` with `2^49 ≤ p ≤ 2^52` (such as the EMA coefficient `0.8f64` or
its complement): the rounded product carries at most one half-ulp of
relative error and is a bounded dyadic. -/
theorem fmul_nat_div52_bounds (S p : ℕ) (hS : S < 2 ^ 53)
    (hplo : 2 ^ 49 ≤ p) (hphi : p ≤ 2 ^ 52) :
    ((S:ℚ) * ((p:ℚ) / 4503599627370496) * (1 - (2:ℚ) ^ (-53:ℤ))
        ≤ fmul (S:ℚ) ((p:ℚ) / 4503599627370496)
      ∧ fmul (S:ℚ) ((p:ℚ) / 4503599627370496)
        ≤ (S:ℚ) * ((p:ℚ) / 4503599627370496) * (1 + (2:ℚ) ^ (-53:ℤ)))
    ∧ ∃ (s : ℕ) (k : ℤ), s ≤ 2 ^ 53 ∧ -300 ≤ k ∧ k ≤ 300
        ∧ fmul (S:ℚ) ((p:ℚ) / 4503599627370496) = (s:ℚ) * (2:ℚ) ^ k := by
  rcases Nat.eq_zero_or_pos S with h0 | h0
  · subst h0
    have hz : fmul ((0:ℕ):ℚ) ((p:ℚ) / 4503599627370496) = 0 := by
      show roundQ _ = 0
      rw [Nat.cast_zero, zero_mul]
      exact roundQ_zero
    refine ⟨⟨?_, ?_⟩, 0, 0, by norm_num, by norm_num, by norm_num, by rw [hz]; norm_num⟩
    · rw [hz]
      push_cast
      norm_num
    · rw [hz]
      push_cast
      norm_num
  · have hSq : 0 < (S:ℚ) := by exact_mod_cast h0
    have hpq : 0 < (p:ℚ) := by
      have : 0 < p := by omega
      exact_mod_cast this
    have hq : 0 < (S:ℚ) * ((p:ℚ) / 4503599627370496) :=
      mul_pos hSq (div_pos hpq (by norm_num))
    have hrep : Rep ((S:ℚ) * ((p:ℚ) / 4503599627370496)) := by
      have heq : (S:ℚ) * ((p:ℚ) / 4503599627370496)
          = ((S * p : ℕ) : ℚ) / ((4503599627370496 : ℕ) : ℚ) := by
        push_cast
        ring
      rw [heq]
      apply rep_div_nat
      · calc S * p ≤ 2 ^ 53 * 2 ^ 52 := Nat.mul_le_mul (le_of_lt hS) hphi
        _ < 2 ^ expFuel := by norm_num [expFuel]
      · norm_num [expFuel]
    have herr := roundQ_err hq hrep
    obtain ⟨-, s, hs0, hs53, hshape⟩ := roundQ_spec hq hrep
    have hS1q : (1:ℚ) ≤ (S:ℚ) := by exact_mod_cast h0
    have hpl : ((2:ℚ) ^ (49:ℕ)) ≤ (p:ℚ) := by exact_mod_cast hplo
    have hph : (p:ℚ) ≤ ((2:ℚ) ^ (52:ℕ)) := by exact_mod_cast hphi
    have hql : (2:ℚ) ^ (-3:ℤ) ≤ (S:ℚ) * ((p:ℚ) / 4503599627370496) := by
      rw [show ((2:ℚ) ^ (-3:ℤ)) = 1/8 by norm_num, mul_div_assoc']
      rw [le_div_iff₀ (by norm_num : (0:ℚ) < 4503599627370496)]
      have hmul : (1:ℚ) * ((2:ℚ) ^ (49:ℕ)) ≤ (S:ℚ) * (p:ℚ) :=
        mul_le_mul hS1q hpl (by positivity) (le_trans zero_le_one hS1q)
      rw [one_mul] at hmul
      norm_num at hmul ⊢
      linarith
    have hqh : (S:ℚ) * ((p:ℚ) / 4503599627370496) < (2:ℚ) ^ (53:ℤ) := by
      have hfrac : (p:ℚ) / 4503599627370496 ≤ 1 := by
        rw [div_le_one (by norm_num : (0:ℚ) < 4503599627370496)]
        exact le_trans (show (p:ℚ) ≤ ((2 ^ 52 : ℕ) : ℚ) by exact_mod_cast hphi)
          (by norm_num)
      have hS53 : (S:ℚ) < ((2:ℚ) ^ (53:ℕ)) := by exact_mod_cast hS
      calc (S:ℚ) * ((p:ℚ) / 4503599627370496)
          ≤ (S:ℚ) * 1 := mul_le_mul_of_nonneg_left hfrac (Nat.cast_nonneg S)
      _ = (S:ℚ) := mul_one _
      _ < ((2:ℚ) ^ (53:ℕ)) := hS53
      _ = (2:ℚ) ^ (53:ℤ) := by norm_num
    obtain ⟨he1, he2⟩ := ratExp_bounds hq hrep hql hqh
    exact ⟨herr, s, ratExp ((S:ℚ) * ((p:ℚ) / 4503599627370496)) - 52, hs53,
      by omega, by omega, hshape⟩

end F64

/-! ## The frame handoff buffer (src/frame.rs)

`FrameData<T>` is modelled as an explicit state record; each method becomes
a state transformer returning exactly what the source returns.  `Duration`
values are modelled as their (nonnegative, integral) nanosecond counts; the
latency EMA runs in `f64`, so each of its operations is modelled through
the binary64 rounding (`F64`), the coefficient is the binary64 value of the
literal `0.8f64`, and the saturating `as u64` cast of `get_latency` is made
explicit. -/

namespace FrameData

/-- `FrameData::BUFFER_SZ` (frame.rs:17). -/
def BUFFER_SZ : ℕ := 1

/-- `FrameData::EXP_MOVING_AVG_COEF` (frame.rs:18): the binary64 value of
the literal `0.8f64`, i.e. `3602879701896397 / 2^52` (not the exact
rational `4/5`, which is not representable). -/
def EXP_MOVING_AVG_COEF : ℚ := F64.roundQ (4 / 5)

/-- The fields of `FrameData<T>` (frame.rs:8-14).  `notifications` counts
the `Condvar::notify_one` calls issued by `add_frame`. -/
structure State (T : Type) where
  buffer : List T
  startTimestamp : Option ℕ
  latency : Option ℚ
  frameCounter : ℕ
  notifications : ℕ

/-- `Default::default()` (frame.rs:64-74): empty queue, no epoch, no
latency estimate, counter zero. -/
def init (T : Type) : State T :=
  { buffer := [], startTimestamp := none, latency := none,
    frameCounter := 0, notifications := 0 }

/-- `ArrayQueue::force_push` on a queue of capacity `BUFFER_SZ`: when the
queue is full, the oldest element is dropped to make room. -/
def force_push {T : Type} (q : List T) (x : T) : List T :=
  if q.length = BUFFER_SZ then q.tail ++ [x] else q ++ [x]

/-- `start_timestamp` (frame.rs:21-27): an atomic
`compare_exchange(None, Some(timestamp))`; returns the argument if it won,
the previously recorded value otherwise. -/
def start_timestamp {T : Type} (s : State T) (timestamp : ℕ) : ℕ × State T :=
  match s.startTimestamp with
  | none => (timestamp, { s with startTimestamp := some timestamp })
  | some prev => (prev, s)

/-- `update_latency` (frame.rs:29-38): every `f64` operation —
`latency.as_nanos() as f64`, `1.0 - COEF`, the two products and the sum —
rounds its exact result to binary64. -/
def update_latency {T : Type} (s : State T) (latency : ℕ) : State T :=
  match s.latency with
  | some past_sample =>
      { s with latency := some (F64.fadd
          (F64.fmul past_sample (F64.fsub 1 EXP_MOVING_AVG_COEF))
          (F64.fmul (F64.ofNat latency) EXP_MOVING_AVG_COEF)) }
  | none => { s with latency := some (F64.ofNat latency) }

/-- `get_latency` (frame.rs:40-44): `Duration::from_nanos(x as u64)` with
the saturating float-to-`u64` cast. -/
def get_latency {T : Type} (s : State T) : Option ℕ :=
  s.latency.map (fun timestamp => min ⌊timestamp⌋.toNat (2 ^ 64 - 1))

/-- `add_frame` (frame.rs:46-52): `force_push`, one `notify_one`, and a
`fetch_add(1)` on the frame counter whose pre-increment value is
returned. -/
def add_frame {T : Type} (s : State T) (frame : T) : ℕ × State T :=
  (s.frameCounter,
    { s with
        buffer := force_push s.buffer frame,
        notifications := s.notifications + 1,
        frameCounter := s.frameCounter + 1 })

/-- `pop_frame` (frame.rs:54-56): `ArrayQueue::pop`, taking the oldest
element if any. -/
def pop_frame {T : Type} (s : State T) : Option T × State T :=
  match s.buffer with
  | [] => (none, s)
  | x :: rest => (some x, { s with buffer := rest })

/-- Interaction language for the buffer: the operations whose results can
carry frames. -/
inductive Op (T : Type) where
  | push (frame : T)
  | pop

/-- One operation step, returning the (optional) frame the operation
hands back. -/
def step {T : Type} (s : State T) : Op T → Option T × State T
  | Op.push f => (none, (add_frame s f).2)
  | Op.pop => pop_frame s

/-- Run a list of operations, collecting every returned frame. -/
def run {T : Type} (s : State T) : List (Op T) → List (Option T)
  | [] => []
  | op :: rest => (step s op).1 :: run (step s op).2 rest

theorem mem_force_push {T : Type} {q : List T} {x a : T}
    (h : a ∈ force_push q x) : a ∈ q ∨ a = x := by
  unfold force_push at h
  split_ifs at h with hc
  · rcases List.mem_append.mp h with h1 | h1
    · exact Or.inl (List.mem_of_mem_tail h1)
    · exact Or.inr (List.mem_singleton.mp h1)
  · rcases List.mem_append.mp h with h1 | h1
    · exact Or.inl h1
    · exact Or.inr (List.mem_singleton.mp h1)

theorem run_avoids {T : Type} (a : T) :
    ∀ (ops : List (Op T)) (s : State T),
      (∀ f, Op.push f ∈ ops → f ≠ a) → a ∉ s.buffer → some a ∉ run s ops := by
  intro ops
  induction ops with
  | nil =>
    intro s _ _
    simp [run]
  | cons op rest ih =>
    intro s hops hbuf
    cases op with
    | push f =>
      have hf : f ≠ a := hops f (List.mem_cons_self _ _)
      simp only [run, step, List.mem_cons]
      push_neg
      refine ⟨by simp, ?_⟩
      apply ih
      · intro g hg
        exact hops g (List.mem_cons_of_mem _ hg)
      · intro hmem
        unfold add_frame at hmem
        simp only at hmem
        rcases mem_force_push hmem with h1 | h1
        · exact hbuf h1
        · exact hf h1.symm
    | pop =>
      simp only [run, step]
      cases hb : s.buffer with
      | nil =>
        simp only [pop_frame, hb, List.mem_cons]
        push_neg
        refine ⟨by simp, ?_⟩
        apply ih
        · intro g hg
          exact hops g (List.mem_cons_of_mem _ hg)
        · simp only [hb] at hbuf ⊢
          exact hbuf
      | cons x xs =>
        simp only [pop_frame, hb, List.mem_cons]
        push_neg
        constructor
        · intro hx
          have hax : a = x := by injection hx
          apply hbuf
          rw [hb, hax]
          exact List.mem_cons_self _ _
        · apply ih
          · intro g hg
            exact hops g (List.mem_cons_of_mem _ hg)
          · intro hmem
            apply hbuf
            rw [hb]
            exact List.mem_cons_of_mem _ hmem

end FrameData

/-! ## Claims C4, C5, C6 -/

namespace FrameData

theorem force_push_of_le {T : Type} {q : List T} (h : q.length ≤ BUFFER_SZ) (x : T) :
    force_push q x = [x] := by
  cases q with
  | nil => rfl
  | cons y t =>
    cases t with
    | nil => simp [force_push, BUFFER_SZ]
    | cons z r =>
      exfalso
      simp [BUFFER_SZ] at h

/-- C4: the frame slot holds at most one frame and `add_frame` always
succeeds: from any (capacity-respecting) state, pushing `A` then `B` with
no intervening pop leaves exactly `[B]` in the slot, `pop_frame` then
returns `B`, and `A` can never be returned by any later sequence of
operations (that does not push `A` again); moreover every push increments
the monotone frame counter by exactly one and issues exactly one
single-waiter wake notification. -/
theorem latest_wins_buffer (T : Type) (s : State T)
    (hcap : s.buffer.length ≤ BUFFER_SZ) (a b : T) (hab : a ≠ b) :
    (add_frame (add_frame s a).2 b).2.buffer = [b]
    ∧ (pop_frame (add_frame (add_frame s a).2 b).2).1 = some b
    ∧ (add_frame s a).2.frameCounter = s.frameCounter + 1
    ∧ (add_frame s a).2.notifications = s.notifications + 1
    ∧ (∀ ops : List (Op T), (∀ f, Op.push f ∈ ops → f ≠ a) →
        some a ∉ run (add_frame (add_frame s a).2 b).2 ops) := by
  have hb1 : (add_frame s a).2.buffer = [a] := by
    simp only [add_frame]
    exact force_push_of_le hcap a
  have hb2 : (add_frame (add_frame s a).2 b).2.buffer = [b] := by
    simp only [add_frame]
    rw [force_push_of_le hcap a]
    exact force_push_of_le (by simp [BUFFER_SZ]) b
  refine ⟨hb2, ?_, by simp [add_frame], by simp [add_frame], ?_⟩
  · simp [pop_frame, hb2]
  · intro ops hops
    apply run_avoids a ops _ hops
    rw [hb2]
    simp [hab]

/-- Witness for C4 with the initial state and frames `1 ≠ 2`. -/
theorem latest_wins_buffer_witness :
    ((init ℕ).buffer.length ≤ BUFFER_SZ ∧ (1:ℕ) ≠ 2) ∧
      ((add_frame (add_frame (init ℕ) 1).2 2).2.buffer = [2]
      ∧ (pop_frame (add_frame (add_frame (init ℕ) 1).2 2).2).1 = some 2
      ∧ (add_frame (init ℕ) 1).2.frameCounter = (init ℕ).frameCounter + 1
      ∧ (add_frame (init ℕ) 1).2.notifications = (init ℕ).notifications + 1
      ∧ (∀ ops : List (Op ℕ), (∀ f, Op.push f ∈ ops → f ≠ 1) →
          some 1 ∉ run (add_frame (add_frame (init ℕ) 1).2 2).2 ops)) :=
  ⟨⟨by decide, by decide⟩,
    latest_wins_buffer ℕ (init ℕ) (by decide) 1 2 (by decide)⟩

/-- C5 counterexample: the claimed exact identity `ema' = S0*0.2 + S1*0.8`
fails on the machine: with spans `S0 = 10 ns` and `S1 = 0 ns` the program
stores `10.0 * (1.0 - 0.8) + 0.0 * 0.8 = 1.9999999999999996` (the binary64
`0.8` is above `4/5`, so `1.0 - 0.8` is below `1/5`), and `get_latency`
truncates it to `1 ns`, not the `2 ns` the exact formula gives. -/
theorem latency_ema_rounding_counterexample :
    (update_latency (update_latency (init ℕ) 10) 0).latency
      = some (9007199254740990 / 4503599627370496)
    ∧ (9007199254740990 / 4503599627370496 : ℚ)
        ≠ (10:ℚ) * (1 - 4/5) + (0:ℚ) * (4/5)
    ∧ get_latency (update_latency (update_latency (init ℕ) 10) 0) = some 1
    ∧ get_latency (update_latency (update_latency (init ℕ) 10) 0) ≠ some 2 :=
  ⟨by decide, by decide, by decide, by decide⟩

/-- C5 (amended): `current_latency` (`get_latency`) returns `none` before
the first `record_latency` (`update_latency`) call; the first recorded span
`S0` seeds the estimate with `S0` itself (exact in `f64` for
`S0 < 2^53` ns); each subsequent span `S` updates the stored estimate by
the machine recurrence `ema' = ema ⊖ₓ ... = fl(fl(ema * fl(1 - 0.8)) +
fl(S * 0.8))` with `0.8` the binary64 constant; consequently after a second
span `S1` the estimate equals `S0*0.2 + S1*0.8` only up to binary64
rounding, within relative error `2^-51` of the exact value (not exactly:
see the counterexample). -/
theorem latency_ema (T : Type) (s0 : State T) (h0 : s0.latency = none)
    (S0 S1 : ℕ) (hS0 : S0 < 2 ^ 53) (hS1 : S1 < 2 ^ 53) :
    get_latency s0 = none
    ∧ (update_latency s0 S0).latency = some ((S0 : ℚ))
    ∧ get_latency (update_latency s0 S0) = some S0
    ∧ (∀ (s : State T) (ema : ℚ) (S : ℕ), s.latency = some ema →
        (update_latency s S).latency
          = some (F64.fadd (F64.fmul ema (F64.fsub 1 EXP_MOVING_AVG_COEF))
              (F64.fmul (F64.ofNat S) EXP_MOVING_AVG_COEF)))
    ∧ ∃ x : ℚ,
        (update_latency (update_latency s0 S0) S1).latency = some x
        ∧ |x - ((S0 : ℚ) * (1/5) + (S1 : ℚ) * (4/5))|
            ≤ ((S0 : ℚ) + (S1 : ℚ)) * (2:ℚ) ^ (-51 : ℤ) := by
  have hofS0 : F64.ofNat S0 = ((S0:ℕ) : ℚ) := F64.ofNat_eq_self (le_of_lt hS0)
  have hofS1 : F64.ofNat S1 = ((S1:ℕ) : ℚ) := F64.ofNat_eq_self (le_of_lt hS1)
  have h1 : (update_latency s0 S0).latency = some (F64.ofNat S0) := by
    unfold update_latency
    rw [h0]
  have h1' : (update_latency s0 S0).latency = some ((S0 : ℚ)) := by
    rw [h1, hofS0]
  have hstep : ∀ (s : State T) (ema : ℚ) (S : ℕ), s.latency = some ema →
      (update_latency s S).latency
        = some (F64.fadd (F64.fmul ema (F64.fsub 1 EXP_MOVING_AVG_COEF))
            (F64.fmul (F64.ofNat S) EXP_MOVING_AVG_COEF)) := by
    intro s ema S hs
    unfold update_latency
    rw [hs]
  have hc : EXP_MOVING_AVG_COEF = 3602879701896397 / 4503599627370496 := by decide
  have ha : F64.fsub 1 EXP_MOVING_AVG_COEF = 900719925474099 / 4503599627370496 := by
    decide
  have h2 := hstep (update_latency s0 S0) (F64.ofNat S0) S1 h1
  rw [hofS0, hofS1, ha, hc] at h2
  have hApack := F64.fmul_nat_div52_bounds S0 900719925474099 hS0
    (by norm_num) (by norm_num)
  have hCpack := F64.fmul_nat_div52_bounds S1 3602879701896397 hS1
    (by norm_num) (by norm_num)
  push_cast at hApack hCpack
  obtain ⟨⟨hA1, hA2⟩, sA, kA, hsA, hkAl, hkAh, hAshape⟩ := hApack
  obtain ⟨⟨hC1, hC2⟩, sC, kC, hsC, hkCl, hkCh, hCshape⟩ := hCpack
  have hu53 : ((2:ℚ) ^ (-53:ℤ)) = 1/9007199254740992 := by norm_num
  rw [hu53] at hA1 hA2 hC1 hC2
  obtain ⟨t1, ht1⟩ : ∃ t, F64.fmul ((S0:ℕ):ℚ) (900719925474099 / 4503599627370496) = t :=
    ⟨_, rfl⟩
  obtain ⟨t2, ht2⟩ : ∃ t, F64.fmul ((S1:ℕ):ℚ) (3602879701896397 / 4503599627370496) = t :=
    ⟨_, rfl⟩
  rw [ht1] at hA1 hA2 hAshape
  rw [ht2] at hC1 hC2 hCshape
  rw [ht1, ht2] at h2
  have hS0nn : (0:ℚ) ≤ (S0:ℚ) := Nat.cast_nonneg S0
  have hS1nn : (0:ℚ) ≤ (S1:ℚ) := Nat.cast_nonneg S1
  have hT1nn : 0 ≤ t1 := by nlinarith
  have hT2nn : 0 ≤ t2 := by nlinarith
  refine ⟨?_, h1', ?_, hstep, F64.fadd t1 t2, h2, ?_⟩
  · unfold get_latency
    rw [h0]
    rfl
  · unfold get_latency
    rw [h1']
    simp only [Option.map_some']
    congr 1
    rw [Int.floor_natCast]
    have ht : ((S0 : ℤ)).toNat = S0 := Int.toNat_natCast S0
    rw [ht]
    omega
  · have hxdef : F64.fadd t1 t2 = F64.roundQ (t1 + t2) := rfl
    rcases lt_or_eq_of_le (add_nonneg hT1nn hT2nn) with hpos | hzero
    · have hrepsum : F64.Rep (t1 + t2) := by
        rw [hAshape, hCshape]
        exact F64.rep_add_dyadic hsA hsC hkAl hkAh hkCl hkCh
      have herr3 := F64.roundQ_err hpos hrepsum
      rw [hu53] at herr3
      rw [hxdef, show ((2:ℚ) ^ (-51:ℤ)) = 1/2251799813685248 by norm_num, abs_le]
      obtain ⟨he1, he2⟩ := herr3
      constructor
      · linarith
      · linarith
    · have ht1z : t1 = 0 := by linarith
      have ht2z : t2 = 0 := by linarith
      have hS0z : (S0:ℚ) = 0 := by
        rw [ht1z] at hA1
        have : (S0:ℚ) ≤ 0 := by nlinarith
        exact le_antisymm this hS0nn
      have hS1z : (S1:ℚ) = 0 := by
        rw [ht2z] at hC1
        have : (S1:ℚ) ≤ 0 := by nlinarith
        exact le_antisymm this hS1nn
      have hxz : F64.fadd t1 t2 = 0 := by
        rw [hxdef, show t1 + t2 = 0 from hzero.symm]
        exact F64.roundQ_zero
      rw [hxz, hS0z, hS1z]
      norm_num

/-- Witness for C5 (amended) with spans `5` and `7`. -/
theorem latency_ema_witness :
    ((init ℕ).latency = none ∧ (5:ℕ) < 2 ^ 53 ∧ (7:ℕ) < 2 ^ 53) ∧
      (get_latency (init ℕ) = none
      ∧ (update_latency (init ℕ) 5).latency = some ((5 : ℚ))
      ∧ get_latency (update_latency (init ℕ) 5) = some 5
      ∧ (∀ (s : State ℕ) (ema : ℚ) (S : ℕ), s.latency = some ema →
          (update_latency s S).latency
            = some (F64.fadd (F64.fmul ema (F64.fsub 1 EXP_MOVING_AVG_COEF))
                (F64.fmul (F64.ofNat S) EXP_MOVING_AVG_COEF)))
      ∧ ∃ x : ℚ,
          (update_latency (update_latency (init ℕ) 5) 7).latency = some x
          ∧ |x - ((5 : ℚ) * (1/5) + (7 : ℚ) * (4/5))|
              ≤ ((5 : ℚ) + (7 : ℚ)) * (2:ℚ) ^ (-51 : ℤ)) :=
  ⟨⟨rfl, by norm_num, by norm_num⟩,
    latency_ema ℕ (init ℕ) rfl 5 7 (by norm_num) (by norm_num)⟩

/-- C6: `start_timestamp` is first-caller-wins and idempotent: the first
call records and returns its argument; any later call, with any argument,
leaves the state unchanged and returns the recorded epoch, so all callers
observe the same single winning value. -/
theorem epoch_first_caller_wins (T : Type) (s : State T) (t t' : ℕ)
    (h : s.startTimestamp = none) :
    (start_timestamp s t).1 = t
    ∧ (start_timestamp s t).2.startTimestamp = some t
    ∧ (start_timestamp (start_timestamp s t).2 t').1 = t
    ∧ (start_timestamp (start_timestamp s t).2 t').2 = (start_timestamp s t).2
    ∧ (∀ (s' : State T) (p : ℕ), s'.startTimestamp = some p →
        (start_timestamp s' t').1 = p ∧ (start_timestamp s' t').2 = s') := by
  have h1 : start_timestamp s t = (t, { s with startTimestamp := some t }) := by
    unfold start_timestamp
    rw [h]
  have hlater : ∀ (s' : State T) (p : ℕ), s'.startTimestamp = some p →
      (start_timestamp s' t').1 = p ∧ (start_timestamp s' t').2 = s' := by
    intro s' p hp
    unfold start_timestamp
    rw [hp]
    exact ⟨rfl, rfl⟩
  refine ⟨by rw [h1], by rw [h1], ?_, ?_, hlater⟩
  · rw [h1]
    exact (hlater _ t rfl).1
  · rw [h1]
    exact (hlater _ t rfl).2

/-- Witness for C6 with timestamps `3` then `9`. -/
theorem epoch_first_caller_wins_witness :
    ((init ℕ).startTimestamp = none) ∧
      ((start_timestamp (init ℕ) 3).1 = 3
      ∧ (start_timestamp (init ℕ) 3).2.startTimestamp = some 3
      ∧ (start_timestamp (start_timestamp (init ℕ) 3).2 9).1 = 3
      ∧ (start_timestamp (start_timestamp (init ℕ) 3).2 9).2 = (start_timestamp (init ℕ) 3).2
      ∧ (∀ (s' : State ℕ) (p : ℕ), s'.startTimestamp = some p →
          (start_timestamp s' 9).1 = p ∧ (start_timestamp s' 9).2 = s')) :=
  ⟨rfl, epoch_first_caller_wins ℕ (init ℕ) 3 9 rfl⟩

end FrameData

/-! ## Claim C10 -/

namespace DColorizer

/-- C10: for every RGB pixel with `R+G+B ≥ 255`, the dominant-channel
expressions of `decolorize` — evaluated in wrapping `usize` arithmetic
modulo `2^64`, where the intermediate subtraction may wrap before the
additive offset — always land in `[0, 1529]` (branch-wise: `[0, 255]`,
`[1274, 1528]`, `[255, 765]`, `[765, 1275]`), and the trailing catch-all
branch returning `0` is unreachable because some channel is always
dominant. -/
theorem dnormalOfRgb_ranges (r g b : ℕ) (hr : r ≤ 255) (hg : g ≤ 255) (hb : b ≤ 255)
    (hsum : 255 ≤ r + g + b) :
    dnormalOfRgb r g b ≤ 1529
    ∧ (r ≥ g ∧ r ≥ b → g ≥ b → dnormalOfRgb r g b ≤ 255)
    ∧ (r ≥ g ∧ r ≥ b → ¬g ≥ b →
        1274 ≤ dnormalOfRgb r g b ∧ dnormalOfRgb r g b ≤ 1528)
    ∧ (¬(r ≥ g ∧ r ≥ b) → g ≥ r ∧ g ≥ b →
        255 ≤ dnormalOfRgb r g b ∧ dnormalOfRgb r g b ≤ 765)
    ∧ (¬(r ≥ g ∧ r ≥ b) → ¬(g ≥ r ∧ g ≥ b) → b ≥ g ∧ b ≥ r →
        765 ≤ dnormalOfRgb r g b ∧ dnormalOfRgb r g b ≤ 1275)
    ∧ ((r ≥ g ∧ r ≥ b) ∨ (g ≥ r ∧ g ≥ b) ∨ (b ≥ g ∧ b ≥ r)) := by
  unfold dnormalOfRgb wsub wadd
  refine ⟨?_, ?_, ?_, ?_, ?_, by omega⟩ <;>
    (intros
     split_ifs <;> omega)

/-- Witness for C10 at the pixel `(40, 200, 100)` (green dominant). -/
theorem dnormalOfRgb_ranges_witness :
    ((40:ℕ) ≤ 255 ∧ (200:ℕ) ≤ 255 ∧ (100:ℕ) ≤ 255 ∧ 255 ≤ 40 + 200 + 100) ∧
      (dnormalOfRgb 40 200 100 ≤ 1529
      ∧ (40 ≥ 200 ∧ 40 ≥ 100 → 200 ≥ 100 → dnormalOfRgb 40 200 100 ≤ 255)
      ∧ (40 ≥ 200 ∧ 40 ≥ 100 → ¬200 ≥ 100 →
          1274 ≤ dnormalOfRgb 40 200 100 ∧ dnormalOfRgb 40 200 100 ≤ 1528)
      ∧ (¬(40 ≥ 200 ∧ 40 ≥ 100) → 200 ≥ 40 ∧ 200 ≥ 100 →
          255 ≤ dnormalOfRgb 40 200 100 ∧ dnormalOfRgb 40 200 100 ≤ 765)
      ∧ (¬(40 ≥ 200 ∧ 40 ≥ 100) → ¬(200 ≥ 40 ∧ 200 ≥ 100) → 100 ≥ 200 ∧ 100 ≥ 40 →
          765 ≤ dnormalOfRgb 40 200 100 ∧ dnormalOfRgb 40 200 100 ≤ 1275)
      ∧ ((40 ≥ 200 ∧ 40 ≥ 100) ∨ (200 ≥ 40 ∧ 200 ≥ 100) ∨ (100 ≥ 200 ∧ 100 ≥ 40))) :=
  ⟨⟨by norm_num, by norm_num, by norm_num, by norm_num⟩,
    dnormalOfRgb_ranges 40 200 100 (by norm_num) (by norm_num) (by norm_num) (by norm_num)⟩

end DColorizer

/-! ## Whole-buffer processing (claims C7 and C9) -/

namespace DColorizer

/-- One output pixel (three bytes) of `colorize` from the `i`-th input
chunk: the two depth bytes at offsets `2i`, `2i+1` (imp.rs:139-186). -/
def colorizePixelAt (m M : ℕ) (be : Bool) (src : List ℕ) (i : ℕ) : Option (List ℕ) :=
  (colorizePixel m M be (src.getD (2 * i) 0) (src.getD (2 * i + 1) 0)).map
    (fun p => [p.1, p.2.1, p.2.2])

/-- `colorize` on whole buffers (imp.rs:136-190).  The zipped
`par_chunks_exact(2)` / `par_chunks_exact_mut(3)` iterators process exactly
`min (|src| / 2) (|dst| / 3)` pixels, writing the first `3·k` output bytes
and leaving the rest of `dst` untouched; `none` models a panic — either a
per-pixel `unreachable!()` or the final
`assert_eq!(counter, width * height)` (imp.rs:189). -/
def colorizeBuf (m M : ℕ) (be : Bool) (w h : ℕ) (src dst : List ℕ) : Option (List ℕ) :=
  if ((List.range (min (src.length / 2) (dst.length / 3))).map
        (colorizePixelAt m M be src)).all Option.isSome
      ∧ min (src.length / 2) (dst.length / 3) = w * h then
    some ((((List.range (min (src.length / 2) (dst.length / 3))).map
        (colorizePixelAt m M be src)).map (fun p => p.getD [])).flatten
      ++ dst.drop (3 * min (src.length / 2) (dst.length / 3)))
  else none

/-- One output pixel (two bytes) of `decolorize` from the `i`-th input
chunk: the three RGB bytes at offsets `3i`, `3i+1`, `3i+2`
(imp.rs:213-243). -/
def decolorizePixelAt (m M : ℕ) (be : Bool) (src : List ℕ) (i : ℕ) : List ℕ :=
  [(decolorizePixel m M be (src.getD (3 * i) 0) (src.getD (3 * i + 1) 0)
      (src.getD (3 * i + 2) 0)).1,
   (decolorizePixel m M be (src.getD (3 * i) 0) (src.getD (3 * i + 1) 0)
      (src.getD (3 * i + 2) 0)).2]

/-- `decolorize` on whole buffers (imp.rs:210-247); the per-pixel body is
total, so the only panic is the pixel-count assertion (imp.rs:247). -/
def decolorizeBuf (m M : ℕ) (be : Bool) (w h : ℕ) (src dst : List ℕ) : Option (List ℕ) :=
  if min (src.length / 3) (dst.length / 2) = w * h then
    some (((List.range (min (src.length / 3) (dst.length / 2))).map
        (decolorizePixelAt m M be src)).flatten
      ++ dst.drop (2 * min (src.length / 3) (dst.length / 2)))
  else none

/-- C7 (amended): the zipped chunk iterators process exactly
`min (⌊|src|/2⌋, ⌊|dst|/3⌋)` pixels (resp. with 3 and 2 swapped for
`decolorize`); the pixel-count assertion aborts whenever that count differs
from `width*height` — in particular for any too-short buffer — and exact
buffer lengths always satisfy it.  It does not, however, reject every
malformed length pair: buffers whose excess beyond `width*height` whole
samples (including partial-sample remainders) still leave the minimum at
`width*height` pass the assertion, with the excess bytes ignored. -/
theorem pixel_count_check (m M : ℕ) (be : Bool) (w h : ℕ) (src dst : List ℕ) :
    (min (src.length / 2) (dst.length / 3) ≠ w * h →
        colorizeBuf m M be w h src dst = none)
    ∧ (src.length = w * h * 2 → dst.length = w * h * 3 →
        min (src.length / 2) (dst.length / 3) = w * h)
    ∧ (min (src.length / 3) (dst.length / 2) ≠ w * h →
        decolorizeBuf m M be w h src dst = none)
    ∧ (src.length = w * h * 3 → dst.length = w * h * 2 →
        min (src.length / 3) (dst.length / 2) = w * h) := by
  refine ⟨?_, ?_, ?_, ?_⟩
  · intro hne
    unfold colorizeBuf
    rw [if_neg (fun hc => hne hc.2)]
  · intro h1 h2
    rw [h1, h2]
    omega
  · intro hne
    unfold decolorizeBuf
    rw [if_neg hne]
  · intro h1 h2
    rw [h1, h2]
    omega

/-- Witness for C7 on a concrete `1×1` frame: an empty depth buffer aborts
`colorize`, an empty RGB buffer aborts `decolorize`, and exact-length
buffers pass the pixel-count assertion in both directions. -/
theorem pixel_count_check_witness :
    colorizeBuf 1 65535 false 1 1 [] [0,0,0] = none
    ∧ min (([0,0]:List ℕ).length / 2) (([0,0,0]:List ℕ).length / 3) = 1 * 1
    ∧ decolorizeBuf 1 65535 false 1 1 [] [0,0] = none
    ∧ min (([0,0,0]:List ℕ).length / 3) (([0,0]:List ℕ).length / 2) = 1 * 1 :=
  ⟨(pixel_count_check 1 65535 false 1 1 [] [0,0,0]).1 (by decide),
   (pixel_count_check 1 65535 false 1 1 [0,0] [0,0,0]).2.1 (by decide) (by decide),
   (pixel_count_check 1 65535 false 1 1 [] [0,0]).2.2.1 (by decide),
   (pixel_count_check 1 65535 false 1 1 [0,0,0] [0,0]).2.2.2 (by decide) (by decide)⟩

/-- C7 counterexample: a depth buffer of length `3` (not `2 = 1·1·2`, and
not even a multiple of the sample size) together with a correct 3-byte RGB
buffer passes the pixel-count assertion — `min (⌊3/2⌋, ⌊3/3⌋) = 1 = 1·1` —
and `colorize` completes normally, silently ignoring the trailing byte,
instead of aborting as the claim requires. -/
theorem length_check_counterexample :
    colorizeBuf 1 65535 false 1 1 [0, 0, 99] [7, 7, 7] = some [255, 0, 0]
    ∧ ([0, 0, 99] : List ℕ).length ≠ 1 * 1 * 2
    ∧ colorizeBuf 1 65535 false 1 1 [0, 0, 99] [7, 7, 7] ≠ none :=
  ⟨by decide, by decide, by decide⟩

theorem flatten_extract {α : Type} (c : ℕ) :
    ∀ (L : List (List α)) (i : ℕ) (tail li : List α),
      (∀ l ∈ L, l.length = c) → L[i]? = some li →
      ((L.flatten ++ tail).drop (c * i)).take c = li := by
  intro L
  induction L with
  | nil =>
    intro i tail li _ hget
    simp at hget
  | cons l Ls ih =>
    intro i tail li hlen hget
    have hl : l.length = c := hlen l (List.mem_cons_self _ _)
    cases i with
    | zero =>
      simp only [List.getElem?_cons_zero, Option.some.injEq] at hget
      subst hget
      rw [List.flatten_cons, List.append_assoc, Nat.mul_zero, List.drop_zero]
      exact List.take_left' hl
    | succ j =>
      simp only [List.getElem?_cons_succ] at hget
      rw [List.flatten_cons, List.append_assoc, List.drop_append_eq_append_drop,
        List.drop_eq_nil_of_le (by
          rw [hl]
          calc c = c * 1 := by ring
          _ ≤ c * (j + 1) := Nat.mul_le_mul_left c (by omega)),
        List.nil_append,
        show c * (j + 1) - l.length = c * j by
          rw [hl]
          have : c * (j + 1) = c * j + c := by ring
          omega]
      exact ih j tail li (fun x hx => hlen x (List.mem_cons_of_mem _ hx)) hget

end DColorizer

namespace DColorizer

theorem colorizeBuf_some (m M : ℕ) (be : Bool) (w h : ℕ) (src dst out : List ℕ)
    (hout : colorizeBuf m M be w h src dst = some out) :
    (((List.range (w * h)).map (colorizePixelAt m M be src)).all Option.isSome)
    ∧ out = ((((List.range (w * h)).map
        (colorizePixelAt m M be src)).map (fun p => p.getD [])).flatten
      ++ dst.drop (3 * (w * h))) := by
  unfold colorizeBuf at hout
  by_cases hc : ((List.range (min (src.length / 2) (dst.length / 3))).map
        (colorizePixelAt m M be src)).all Option.isSome
      ∧ min (src.length / 2) (dst.length / 3) = w * h
  · rw [if_pos hc] at hout
    obtain ⟨hall, hk⟩ := hc
    rw [hk] at hall hout
    exact ⟨hall, by injection hout with hv; exact hv.symm⟩
  · rw [if_neg hc] at hout
    exact absurd hout (by simp)

theorem decolorizeBuf_some (m M : ℕ) (be : Bool) (w h : ℕ) (src dst out : List ℕ)
    (hout : decolorizeBuf m M be w h src dst = some out) :
    out = (((List.range (w * h)).map (decolorizePixelAt m M be src)).flatten
      ++ dst.drop (2 * (w * h))) := by
  unfold decolorizeBuf at hout
  by_cases hc : min (src.length / 3) (dst.length / 2) = w * h
  · rw [if_pos hc] at hout
    rw [hc] at hout
    injection hout with hv
    exact hv.symm
  · rw [if_neg hc] at hout
    exact absurd hout (by simp)

theorem colorizeBuf_pixel (m M : ℕ) (be : Bool) (w h i : ℕ) (src dst out : List ℕ)
    (hi : i < w * h) (hout : colorizeBuf m M be w h src dst = some out) :
    (out.drop (3 * i)).take 3 = (colorizePixelAt m M be src i).getD [] := by
  obtain ⟨hall, hout⟩ := colorizeBuf_some m M be w h src dst out hout
  subst hout
  apply flatten_extract 3
  · intro l hl
    rw [List.mem_map] at hl
    obtain ⟨p, hpmem, rfl⟩ := hl
    have hps : p.isSome := List.all_eq_true.mp hall p hpmem
    rw [List.mem_map] at hpmem
    obtain ⟨j, _, rfl⟩ := hpmem
    unfold colorizePixelAt at hps ⊢
    cases hq : colorizePixel m M be (src.getD (2 * j) 0) (src.getD (2 * j + 1) 0) with
    | none => rw [hq] at hps; simp at hps
    | some q => rfl
  · rw [List.getElem?_map, List.getElem?_map, List.getElem?_range hi]
    rfl

theorem decolorizeBuf_pixel (m M : ℕ) (be : Bool) (w h i : ℕ) (src dst out : List ℕ)
    (hi : i < w * h) (hout : decolorizeBuf m M be w h src dst = some out) :
    (out.drop (2 * i)).take 2 = decolorizePixelAt m M be src i := by
  have hout := decolorizeBuf_some m M be w h src dst out hout
  subst hout
  apply flatten_extract 2
  · intro l hl
    rw [List.mem_map] at hl
    obtain ⟨j, _, rfl⟩ := hl
    rfl
  · rw [List.getElem?_map, List.getElem?_range hi]
    rfl

/-- C9: per-pixel locality and determinism.  Output pixel `i` of
`colorize` is a function of only the two depth bytes of input pixel `i`
(plus byte order and bounds), and output pixel `i` of `decolorize` is a
function of only the three RGB bytes of input pixel `i`: two successful
runs whose inputs agree on pixel `i` produce identical bytes for output
pixel `i`, whatever the rest of the buffers hold.  (The model is a pure
function of the input buffer, so two runs on the same inputs are
identical by construction; the rayon chunking only partitions which
worker computes which pixel.) -/
theorem pixel_locality (m M : ℕ) (be : Bool) (w h i : ℕ)
    (src src' dst dst' out out' : List ℕ) (hi : i < w * h) :
    (colorizeBuf m M be w h src dst = some out →
     colorizeBuf m M be w h src' dst' = some out' →
     src.getD (2 * i) 0 = src'.getD (2 * i) 0 →
     src.getD (2 * i + 1) 0 = src'.getD (2 * i + 1) 0 →
     (out.drop (3 * i)).take 3 = (out'.drop (3 * i)).take 3)
    ∧ (decolorizeBuf m M be w h src dst = some out →
       decolorizeBuf m M be w h src' dst' = some out' →
       src.getD (3 * i) 0 = src'.getD (3 * i) 0 →
       src.getD (3 * i + 1) 0 = src'.getD (3 * i + 1) 0 →
       src.getD (3 * i + 2) 0 = src'.getD (3 * i + 2) 0 →
       (out.drop (2 * i)).take 2 = (out'.drop (2 * i)).take 2) := by
  constructor
  · intro hout hout' h1 h2
    rw [colorizeBuf_pixel m M be w h i src dst out hi hout,
      colorizeBuf_pixel m M be w h i src' dst' out' hi hout']
    unfold colorizePixelAt
    rw [h1, h2]
  · intro hout hout' h1 h2 h3
    rw [decolorizeBuf_pixel m M be w h i src dst out hi hout,
      decolorizeBuf_pixel m M be w h i src' dst' out' hi hout']
    unfold decolorizePixelAt
    rw [h1, h2, h3]

/-- Witness for C9 on concrete `1×1` runs: the depth pixel `(0,0)` gives
the same RGB pixel whatever trailing garbage or output buffer is used, and
likewise the RGB pixel `(255,0,0)` decodes identically in both runs. -/
theorem pixel_locality_witness :
    ((([255,0,0]:List ℕ).drop (3 * 0)).take 3
        = (([255,0,0]:List ℕ).drop (3 * 0)).take 3)
    ∧ ((([255,255]:List ℕ).drop (2 * 0)).take 2
        = (([255,255]:List ℕ).drop (2 * 0)).take 2) :=
  ⟨(pixel_locality 1 65535 false 1 1 0 [0,0] [0,0,5] [7,7,7] [8,8,8]
      [255,0,0] [255,0,0] (by decide)).1 (by decide) (by decide)
      (by decide) (by decide),
   (pixel_locality 1 65535 false 1 1 0 [255,0,0] [255,0,0,9] [7,7] [8,8]
      [255,255] [255,255] (by decide)).2 (by decide) (by decide)
      (by decide) (by decide) (by decide)⟩

end DColorizer
